import Mathlib

/-!
# voidbot, plugin `urls`: a verification development

Shallow embedding of `plugin/urls/urls.go`:

* `formatDuration` / `pluralize`, with Go's `time.Duration.Hours`, `Minutes` and
  `Seconds` (float64 arithmetic, modelled exactly on fractions);
* the table `seen` and the three SQL statements issued against it;
* `handleURL` and `handleCommand` as functions from the store, the inputs and
  the outcomes of the fallible database calls to the new store and the notices sent;
* `URLRegex` as a regular expression value run by a leftmost-first matcher.
-/

namespace Voidbot

/-! ## float64 values, as exact fractions -/

/-- A finite float64 value, kept as the exact fraction `num / den`. -/
structure F64 where
  num : Int
  den : Nat
  deriving DecidableEq, Repr

/-- Number of binary digits of `n`, by halving at most `fuel` times. -/
def bitLenAux : Nat → Nat → Nat
  | 0, _ => 0
  | fuel + 1, n => if n = 0 then 0 else bitLenAux fuel (n / 2) + 1

/-- Number of binary digits of `n`. -/
def bitLen (n : Nat) : Nat := bitLenAux n n

/-- The binary exponent of the positive fraction `a / b`: the `e` with
`2 ^ e ≤ a / b < 2 ^ (e + 1)`. -/
def F64.exponent (a b : Nat) : Int :=
  let e0 : Int := (bitLen a : Int) - (bitLen b : Int)
  let above : Bool :=
    if 0 ≤ e0 then decide (b * 2 ^ e0.toNat ≤ a) else decide (b ≤ a * 2 ^ (-e0).toNat)
  if above then e0 else e0 - 1

/-- The integer nearest to `n / d`, ties to the even one. -/
def roundHalfEven (n d : Nat) : Nat :=
  let q := n / d
  let r := n % d
  if 2 * r < d then q else if d < 2 * r then q + 1 else q + q % 2

/-- The float64 nearest to the positive fraction `a / b`, ties to even: the
quotient is scaled to a 53-bit significand and rounded there. The exponent
range is not modelled; every value met here lies between `2 ^ (-42)` and `2 ^ 63`. -/
def F64.roundPos (a b : Nat) : F64 :=
  let s : Int := 52 - F64.exponent a b
  if 0 ≤ s then ⟨roundHalfEven (a * 2 ^ s.toNat) b, 2 ^ s.toNat⟩
  else ⟨roundHalfEven a (b * 2 ^ (-s).toNat) * 2 ^ (-s).toNat, 1⟩

/-- The float64 nearest to the fraction `n / d` (`d` positive), ties to even. -/
def F64.round (n : Int) (d : Nat) : F64 :=
  if n = 0 then ⟨0, 1⟩
  else if 0 < n then F64.roundPos n.toNat d
  else
    let r := F64.roundPos (-n).toNat d
    ⟨-r.num, r.den⟩

/-- Go's conversion `float64(i)` of an int64. -/
def F64.ofInt (i : Int) : F64 := F64.round i 1

/-- Go's float64 addition. -/
def F64.add (x y : F64) : F64 := F64.round (x.num * y.den + y.num * x.den) (x.den * y.den)

/-- Go's float64 division by a positive constant that is itself a float64. -/
def F64.divNat (x : F64) (c : Nat) : F64 := F64.round x.num (x.den * c)

/-- Go's conversion `int64(f)`: truncation toward zero. -/
def F64.toInt64 (x : F64) : Int := Int.tdiv x.num x.den

/-! ## time.Duration and time.Time -/

/-- A `time.Duration`: a count of nanoseconds (an int64). -/
abbrev Duration := Int

def Second : Duration := 1000000000
def Minute : Duration := 60 * Second
def Hour : Duration := 60 * Minute

def minDuration : Duration := -(2 ^ 63)
def maxDuration : Duration := 2 ^ 63 - 1

/-- Go's `Duration.Hours`: `float64(d / Hour) + float64(d % Hour) / (60*60*1e9)`. -/
def Duration.Hours (d : Duration) : F64 :=
  F64.add (F64.ofInt (Int.tdiv d Hour)) (F64.divNat (F64.ofInt (Int.tmod d Hour)) 3600000000000)

/-- Go's `Duration.Minutes`: `float64(d / Minute) + float64(d % Minute) / (60*1e9)`. -/
def Duration.Minutes (d : Duration) : F64 :=
  F64.add (F64.ofInt (Int.tdiv d Minute)) (F64.divNat (F64.ofInt (Int.tmod d Minute)) 60000000000)

/-- Go's `Duration.Seconds`: `float64(d / Second) + float64(d % Second) / 1e9`. -/
def Duration.Seconds (d : Duration) : F64 :=
  F64.add (F64.ofInt (Int.tdiv d Second)) (F64.divNat (F64.ofInt (Int.tmod d Second)) 1000000000)

/-- A `time.Time`: the instant, and the wall clock reading that `Format` prints. -/
structure Time where
  unixNano : Int
  month : Nat
  day : Nat
  hour : Nat
  minute : Nat
  second : Nat
  deriving DecidableEq, Repr

/-- Go's `Time.Sub`: the difference, saturated to the range of a Duration. -/
def Time.Sub (t u : Time) : Duration :=
  let d := t.unixNano - u.unixNano
  if d < minDuration then minDuration else if maxDuration < d then maxDuration else d

/-- Two decimal digits, zero padded. -/
def pad2 (n : Nat) : String := if n < 10 then "0" ++ toString n else toString n

/-- The layout "01-02 15:04:05" of `Time.Format`: month-day hour:minute:second. -/
def Time.Format (t : Time) : String :=
  pad2 t.month ++ "-" ++ pad2 t.day ++ " " ++ pad2 t.hour ++ ":" ++ pad2 t.minute ++ ":"
    ++ pad2 t.second

/-! ## formatDuration -/

/-- The function `pluralize` of urls.go. -/
def pluralize (count : Int) (text : String) : String :=
  if count > 1 then toString count ++ " " ++ text ++ "s"
  else toString count ++ " " ++ text

/-- The function `formatDuration` of urls.go. -/
def formatDuration (d : Duration) : String :=
  let h := (Duration.Hours d).toInt64
  if h ≥ 24 then
    let days := Int.tdiv h 24
    pluralize days "day"
  else if h ≥ 1 then
    pluralize h "hour"
  else
    let m := (Duration.Minutes d).toInt64
    if m ≥ 1 then pluralize m "minute"
    else
      let s := (Duration.Seconds d).toInt64
      pluralize s "second"

/-- The cascade of the specification (4.4), on whole units obtained by
truncating integer division: days if at least 24 whole hours, else hours if at
least one, else minutes if at least one, else seconds. -/
def humanizeSpec (d : Duration) : String :=
  let h := Int.tdiv d Hour
  if h ≥ 24 then pluralize (Int.tdiv h 24) "day"
  else if h ≥ 1 then pluralize h "hour"
  else
    let m := Int.tdiv d Minute
    if m ≥ 1 then pluralize m "minute"
    else pluralize (Int.tdiv d Second) "second"

/-! ## The table `seen` -/

/-- One row of `seen (id, url, nick, src, dst, timestamp)`. -/
structure Row where
  id : Nat
  url : String
  nick : String
  src : String
  dst : String
  timestamp : Time
  deriving DecidableEq, Repr

/-- The contents of the table `seen`. -/
abbrev Store := List Row

/-- The primary key constraint on `id`: no two rows share an id. -/
def Store.WF (db : Store) : Prop := (db.map Row.id).Nodup

instance (db : Store) : Decidable db.WF := by unfold Store.WF; infer_instance

/-- The rows selected by `WHERE url = ? AND dst = ?`. -/
def selectPair (db : Store) (url dst : String) : List Row :=
  db.filter (fun r => r.url == url && r.dst == dst)

/-- The first row under `ORDER BY id DESC`: a row of largest id. -/
def topById : List Row → Option Row
  | [] => none
  | r :: rs =>
    match topById rs with
    | none => some r
    | some m => if m.id < r.id then some r else some m

/-- The statement
`SELECT nick, src, timestamp FROM seen WHERE url = ? AND dst = ? ORDER BY id DESC LIMIT 1`. -/
def queryLast (db : Store) (url dst : String) : Option Row :=
  topById (selectPair db url dst)

/-- The statement `SELECT COUNT(*) FROM seen WHERE url = ? AND dst = ?`. -/
def queryCount (db : Store) (url dst : String) : Nat :=
  (selectPair db url dst).length

/-- The id the engine gives a new row: one more than the largest id in use. -/
def nextId (db : Store) : Nat := (db.map Row.id).foldr max 0 + 1

/-- The statement
`INSERT INTO seen (url, nick, src, dst, timestamp) VALUES (?, ?, ?, ?, ?)`. -/
def insertRow (db : Store) (url nick src dst : String) (ts : Time) : Store :=
  db ++ [⟨nextId db, url, nick, src, dst, ts⟩]

/-! ## handleURL -/

/-- The sender of an IRC line: `line.Src.Nick` and `line.Src.Raw`. -/
structure Line where
  nick : String
  raw : String
  deriving DecidableEq, Repr

/-- A call `conn.Notice(target, text)`. -/
structure Notice where
  target : String
  text : String
  deriving DecidableEq, Repr

/-- What the environment decides during one call of `handleURL`: which of the
fallible database calls return an error, and the two readings of `time.Now()`. -/
structure URLEnv where
  /-- `db.Begin()` returns an error. -/
  beginFails : Bool
  /-- The first `row.Scan` returns an error other than `sql.ErrNoRows`. -/
  lookupFails : Bool
  /-- The `row.Scan` of the `COUNT(*)` returns an error. -/
  countFails : Bool
  /-- The `tx.Exec` of the INSERT returns an error. -/
  insertFails : Bool
  /-- The `tx.Commit()` returns an error. -/
  commitFails : Bool
  /-- The `time.Now()` that the notice measures the elapsed time from. -/
  now : Time
  /-- The `time.Now()` stored in the new row by the deferred INSERT. -/
  insertTime : Time
  deriving DecidableEq, Repr

/-- The store and the notices after a call. -/
structure Effect where
  store : Store
  notices : List Notice
  deriving DecidableEq, Repr

/-- The deferred function of `handleURL`: the INSERT, then commit or rollback.
The row is persisted only when both the INSERT and the commit succeed. -/
def deferredInsert (env : URLEnv) (db : Store) (line : Line) (dst url : String) : Store :=
  if env.insertFails then db
  else if env.commitFails then db
  else insertRow db url line.nick line.raw dst env.insertTime

/-- The text of the duplicate notice. -/
def seenMessage (url lastSeen nick : String) (count : Nat) : String :=
  "URL \x27" ++ url ++ "\x27 was last seen " ++ lastSeen ++ " ago by " ++ nick ++ " ("
    ++ toString count ++ " total)"

/-- The body of `handleURL` between the `defer` and the return: the notices it sends.
Both queries run inside the transaction, before the deferred INSERT, so they read `db`. -/
def lookupNotices (env : URLEnv) (db : Store) (dst url : String) : List Notice :=
  if env.lookupFails then []
  else
    match queryLast db url dst with
    | none => []
    | some prior =>
      let nick := if prior.nick = "" then prior.src else prior.nick
      if env.countFails then []
      else
        let count := queryCount db url dst
        let delta := env.now.Sub prior.timestamp
        let lastSeen := formatDuration delta
        [⟨dst, seenMessage url lastSeen nick count⟩]

/-- The function `handleURL` of urls.go; `url` stands for `url.String()`. -/
def handleURL (env : URLEnv) (db : Store) (line : Line) (dst url : String) : Effect :=
  if env.beginFails then ⟨db, []⟩
  else ⟨deferredInsert env db line dst url, lookupNotices env db dst url⟩

/-! ## handleCommand -/

/-- Go's `unicode.IsSpace`. -/
def isSpace (c : Char) : Bool :=
  let n := c.toNat
  (9 ≤ n && n ≤ 13) || n == 32 || n == 0x85 || n == 0xA0 || n == 0x1680
    || (0x2000 ≤ n && n ≤ 0x200A) || n == 0x2028 || n == 0x2029 || n == 0x202F
    || n == 0x205F || n == 0x3000

/-- Go's `strings.TrimSpace`: leading and trailing white space removed. -/
def TrimSpace (s : String) : String :=
  String.mk (((s.data.dropWhile isSpace).reverse.dropWhile isSpace).reverse)

/-- The row on which the engine evaluates the bare columns of a `GROUP BY`
group: SQL leaves the choice to the engine, which is given here as the position
it picks in each group (taken modulo the size of the group). -/
abbrev Engine := List Row → Nat

/-- The groups of `GROUP BY url`: for each distinct url, its rows in table order. -/
def groupByUrl (db : Store) : List (List Row) :=
  (db.map Row.url).dedup.map (fun u => db.filter (fun r => r.url == u))

/-- Descending order of id. -/
def idDesc (a b : Row) : Prop := b.id ≤ a.id

instance : DecidableRel idDesc := fun a b => inferInstanceAs (Decidable (b.id ≤ a.id))

instance : IsTotal Row idDesc := ⟨fun a b => Nat.le_total b.id a.id⟩

instance : IsTrans Row idDesc := ⟨fun _ _ _ hab hbc => Nat.le_trans hbc hab⟩

/-- The statement
`SELECT nick, src, timestamp, dst, url FROM seen GROUP BY url ORDER BY id DESC LIMIT ?`:
one row per group, the one the engine picks; these ordered by their id,
largest first; the first `limit` of them. -/
def queryRecent (eng : Engine) (db : Store) (limit : Nat) : List Row :=
  (((groupByUrl db).filterMap (fun g => g.get? (eng g % g.length))).insertionSort idDesc).take
    limit

/-- What the environment decides during one call of `handleCommand`. -/
structure CmdEnv where
  /-- The value of `command.CommandPrefix`. -/
  commandPrefix : String
  /-- The engine behind `db.Query`. -/
  engine : Engine
  /-- The call `db.Query` returns an error. -/
  queryFails : Bool
  /-- For the k-th result row, the index of the column at which `rows.Scan`
  returns an error, if it does. -/
  scanFailsAt : Nat → Option (Fin 5)

/-- One line of the listing. -/
def entryMessage (timestr dst url nick : String) : String :=
  timestr ++ ": " ++ dst ++ ": " ++ url ++ " by " ++ nick

/-- The loop `for rows.Next()` of `handleCommand` and the statement after it,
from the `k`-th result row on; `reply` is the parameter `dst` of the call and
`n` the counter. Inside the loop the row's variable `dst` shadows the
parameter: on a scan error the notice goes to that variable, which holds the
row's `dst` if the columns before `url` were scanned and is empty otherwise. -/
def listRows (env : CmdEnv) (reply : String) : List Row → Nat → Int → List Notice
  | [], _, n => if n > 0 then [⟨reply, "(no more URLs)"⟩] else []
  | r :: rs, k, n =>
    match env.scanFailsAt k with
    | some col =>
      let dst := if 3 < col.val then r.dst else ""
      [⟨dst, "urls: Internal error occurred"⟩]
    | none =>
      let nick := if r.nick = "" then r.src else r.nick
      let timestr := r.timestamp.Format
      ⟨reply, entryMessage timestr r.dst r.url nick⟩ :: listRows env reply rs (k + 1) (n - 1)

/-- The function `handleCommand` of urls.go: the notices it sends. It does not
write to the store. -/
def handleCommand (env : CmdEnv) (db : Store) (arg dst : String) (isPrivate : Bool) :
    List Notice :=
  if !isPrivate then [⟨dst, "urls: URL querying must be done over private messages"⟩]
  else
    let arg := TrimSpace arg
    if arg = "help" then
      [⟨dst, "urls: usage: " ++ env.commandPrefix ++ "urls"⟩,
       ⟨dst, "urls: Prints the last 5 URLs seen in all channels"⟩]
    else
      let n : Nat := 5
      if env.queryFails then [⟨dst, "urls: Internal error occurred"⟩]
      else listRows env dst (queryRecent env.engine db n) 0 n

/-! ## URLRegex -/

/-- A regular expression of Go's `regexp` syntax, over character classes. -/
inductive RE where
  | eps : RE
  | wordB : RE
  | cls : (Char → Bool) → RE
  | seq : RE → RE → RE
  | alt : RE → RE → RE
  | star : RE → RE

/-- The greedy `x?`. -/
def RE.opt (a : RE) : RE := RE.alt a RE.eps

/-- The greedy `x+`. -/
def RE.plus (a : RE) : RE := RE.seq a (RE.star a)

/-- A position in the text: the characters before it, nearest first, and those after it. -/
structure Pos where
  before : List Char
  after : List Char
  deriving DecidableEq, Repr

/-- The class `[0-9A-Za-z_]`, which decides `\b`. -/
def isWordChar (c : Char) : Bool :=
  ('a' ≤ c && c ≤ 'z') || ('A' ≤ c && c ≤ 'Z') || ('0' ≤ c && c ≤ '9')
    || c == '_'

/-- Whether the optional character is a word character. -/
def isWordAt : Option Char → Bool
  | none => false
  | some c => isWordChar c

/-- The assertion `\b`: exactly one side of the position is a word character. -/
def atBoundary (z : Pos) : Bool := isWordAt z.before.head? != isWordAt z.after.head?

/-- The greedy loop of `x*`, at most `fuel` rounds; a round must consume text. -/
def starLoop (body : Pos → (Pos → Option Pos) → Option Pos) :
    Nat → Pos → (Pos → Option Pos) → Option Pos
  | 0, z, k => k z
  | fuel + 1, z, k =>
    match body z (fun z1 =>
        if z1.after.length < z.after.length then starLoop body fuel z1 k else none) with
    | some r => some r
    | none => k z

/-- A backtracking run of the expression from `z`: the alternatives are tried
in the order of Go's leftmost-first rule (left branch first, loops greedy),
and `k` decides whether the rest of the match succeeds from the position reached. -/
def RE.run : RE → Pos → (Pos → Option Pos) → Option Pos
  | RE.eps, z, k => k z
  | RE.wordB, z, k => if atBoundary z then k z else none
  | RE.cls p, z, k =>
    match z.after with
    | [] => none
    | c :: rest => if p c then k ⟨c :: z.before, rest⟩ else none
  | RE.seq a b, z, k => a.run z (fun z1 => b.run z1 k)
  | RE.alt a b, z, k =>
    match a.run z k with
    | some r => some r
    | none => b.run z k
  | RE.star a, z, k => starLoop a.run z.after.length z k

/-- The leftmost match at or after the position: its start and its end. -/
def RE.find (re : RE) : List Char → List Char → Option (Pos × Pos)
  | b, [] => (re.run ⟨b, []⟩ some).map (fun e => (⟨b, []⟩, e))
  | b, c :: rest =>
    match re.run ⟨b, c :: rest⟩ some with
    | some e => some (⟨b, c :: rest⟩, e)
    | none => RE.find re (c :: b) rest

/-- The text between two positions of the same input. -/
def between (s e : Pos) : List Char := s.after.take (s.after.length - e.after.length)

/-- The loop of Go's `FindAll`: successive matches, each search starting where
the last match ended; an empty match moves the search one character on and is
dropped when it touches the previous match. `prevEnd` is the end of the previous
match, as the number of characters after it. -/
def RE.findAll (re : RE) : Nat → Pos → Option Nat → List (List Char)
  | 0, _, _ => []
  | fuel + 1, z, prevEnd =>
    match re.find z.before z.after with
    | none => []
    | some (s, e) =>
      if e.after.length = z.after.length then
        let out := if prevEnd = some s.after.length then [] else [between s e]
        match z.after with
        | [] => out
        | c :: rest => out ++ RE.findAll re fuel ⟨c :: z.before, rest⟩ (some e.after.length)
      else between s e :: RE.findAll re fuel e (some e.after.length)

/-- The class `\s` of Go's regexp: `[\t\n\f\r ]`. -/
def reSpace (c : Char) : Bool :=
  let n := c.toNat
  n == 9 || n == 10 || n == 12 || n == 13 || n == 32

/-- The letters `[a-z]` under `(?i)`: both cases and the two characters that
fold to a letter, U+017F (long s) and U+212A (Kelvin sign). -/
def foldLetter (c : Char) : Bool :=
  ('a' ≤ c && c ≤ 'z') || ('A' ≤ c && c ≤ 'Z') || c.toNat == 0x17F || c.toNat == 0x212A

/-- The class `\d`. -/
def reDigit (c : Char) : Bool := '0' ≤ c && c ≤ '9'

/-- The class `[\w-]` under `(?i)`. -/
def wordDash (c : Char) : Bool := foldLetter c || reDigit c || c == '_' || c == '-'

/-- The class `[a-z0-9%]` under `(?i)`. -/
def schemeTail (c : Char) : Bool := foldLetter c || reDigit c || c == '%'

/-- The class `[a-z0-9.\-]` under `(?i)`. -/
def hostChar (c : Char) : Bool := foldLetter c || reDigit c || c == '.' || c == '-'

/-- The class `[^\s()<>]`. -/
def bodyChar (c : Char) : Bool :=
  !(reSpace c || c == '(' || c == ')' || c == '<' || c == '>')

/-- The code points of the characters listed in the last class of URLRegex:
backquote ! ( ) [ ] { } ; : apostrophe double-quote . , < > ? and the six
quotation marks U+00AB, U+00BB, U+201C, U+201D, U+2018, U+2019. -/
def finalExcluded : List Nat :=
  [96, 33, 40, 41, 91, 93, 123, 125, 59, 58, 39, 34, 46, 44, 60, 62, 63,
   0xAB, 0xBB, 0x201C, 0x201D, 0x2018, 0x2019]

/-- The last class of URLRegex: neither `\s` nor one of the listed characters. -/
def finalChar (c : Char) : Bool := !(reSpace c || finalExcluded.contains c.toNat)

/-- A literal character that is not a letter (`/ : . ( )`), which `(?i)` leaves alone. -/
def lit (c : Char) : RE := RE.cls (fun x => x == c)

/-- The expression `[^\s()<>]+`. -/
def bodyRun : RE := RE.plus (RE.cls bodyChar)

/-- The expression `([^\s()<>]+|(\([^\s()<>]+\)))*` inside a parenthesised group. -/
def groupInner : RE :=
  RE.star (RE.alt bodyRun (RE.seq (lit '(') (RE.seq bodyRun (lit ')'))))

/-- The expression `\(([^\s()<>]+|(\([^\s()<>]+\)))*\)`. -/
def parenGroup : RE := RE.seq (lit '(') (RE.seq groupInner (lit ')'))

/-- The first part of URLRegex:
`[a-z][\w-]+:(?:/{1,3}|[a-z0-9%])|www\d{0,3}[.]|[a-z0-9.\-]+[.][a-z]{2,4}/`. -/
def urlHead : RE :=
  let slash := lit '/'
  let w := RE.cls (fun x => x == 'w' || x == 'W')
  let az := RE.cls foldLetter
  let d := RE.cls reDigit
  RE.alt
    (RE.seq az (RE.seq (RE.plus (RE.cls wordDash)) (RE.seq (lit ':')
      (RE.alt (RE.seq slash (RE.opt (RE.seq slash (RE.opt slash)))) (RE.cls schemeTail)))))
    (RE.alt
      (RE.seq w (RE.seq w (RE.seq w
        (RE.seq (RE.opt (RE.seq d (RE.opt (RE.seq d (RE.opt d))))) (lit '.')))))
      (RE.seq (RE.plus (RE.cls hostChar)) (RE.seq (lit '.')
        (RE.seq az (RE.seq az (RE.seq (RE.opt (RE.seq az (RE.opt az))) slash))))))

/-- The last part of URLRegex: a parenthesised group or a character of the last class. -/
def urlEnd : RE := RE.alt parenGroup (RE.cls finalChar)

/-- The variable `URLRegex` of urls.go:
`(?i)\b(HEAD(?:[^\s()<>]+|GROUP)+(?:GROUP|[^\s...]))`. Its capture group 1 spans
the whole match, `\b` being of width zero. -/
def URLRegex : RE :=
  RE.seq RE.wordB (RE.seq urlHead (RE.seq (RE.plus (RE.alt bodyRun parenGroup)) urlEnd))

/-- The candidates of a message: `submatches[1]` for each element of
`URLRegex.FindAllStringSubmatch(text, -1)`. -/
def Extract (text : String) : List String :=
  (URLRegex.findAll (text.length + 1) ⟨[], text.data⟩ none).map String.mk

/-! ## Definitions used to state the properties -/

/-- The store after successive calls of `handleURL` for one line, destination
and url, one call per environment. -/
def storeAfter (line : Line) (dst url : String) : List URLEnv → Store → Store
  | [], db => db
  | e :: es, db => storeAfter line dst url es (handleURL e db line dst url).store

/-- A call of `handleURL` in which no database call fails. -/
def URLEnv.healthy (e : URLEnv) : Prop :=
  e.beginFails = false ∧ e.lookupFails = false ∧ e.countFails = false ∧
    e.insertFails = false ∧ e.commitFails = false

instance (e : URLEnv) : Decidable e.healthy := by unfold URLEnv.healthy; infer_instance

/-- The text of a duplicate notice as the specification writes it. -/
def noticeText (url elapsed who : String) (priorCount : Nat) : String :=
  "URL \x27" ++ url ++ "\x27 was last seen " ++ elapsed ++ " ago by " ++ who ++ " ("
    ++ toString priorCount ++ " total)"

/-- The nick of a row, or its src when the nick is empty. -/
def Row.who (r : Row) : String := if r.nick = "" then r.src else r.nick

/-- Reading a text backwards from just before a `)`, `depth` more `)` being
open: whether the `(` that matches the first `)` is found. -/
def scanOpen : List Char → Nat → Bool
  | [], _ => false
  | c :: rest, depth =>
    if c = '(' then
      match depth with
      | 0 => true
      | d + 1 => scanOpen rest d
    else if c = ')' then scanOpen rest (depth + 1)
    else scanOpen rest depth

/-- The text ends in a `)` whose matching `(` lies inside the text. -/
def closesGroup (w : List Char) : Bool :=
  match w.reverse with
  | [] => false
  | c :: rest => c == ')' && scanOpen rest 0

/-- The punctuation that the specification keeps out of the end of a candidate, as
it lists it: backquote ! ( ) [ ] { } ; : apostrophe double-quote . , < > ? and the
quotation marks « » “ ” ‘ ’. -/
def trailingPunctuation : List Char :=
  "\x60!()[]\x7b\x7d;:\x27\x22.,<>?«»“”‘’".data

/-- The five characters that Go's regexp class `\s` holds: tab, line feed, form
feed, carriage return and space. -/
def regexpSpace : List Char := ['\t', '\n', '\x0c', '\r', ' ']

/-- The ending of a candidate in the words of the specification, white space
being what Go's `unicode.IsSpace` (and `strings.TrimSpace`) takes for it. -/
def endsAsWorded (w : List Char) : Prop :=
  closesGroup w = true ∨
    ∃ c, w.getLast? = some c ∧ isSpace c = false ∧ c ∉ trailingPunctuation

/-- The ending of a candidate with white space limited to the five characters of
the class `\s`. -/
def endsWell (w : List Char) : Prop :=
  closesGroup w = true ∨
    ∃ c, w.getLast? = some c ∧ c ∉ regexpSpace ∧ c ∉ trailingPunctuation

/-- The texts an expression matches, whatever the order in which a run tries the
alternatives; `\b` is of width zero, and what surrounds the text is left out. -/
inductive Matches : RE → List Char → Prop where
  | eps : Matches RE.eps []
  | wordB : Matches RE.wordB []
  | cls (p : Char → Bool) (c : Char) : p c = true → Matches (RE.cls p) [c]
  | seq (r1 r2 : RE) (w1 w2 : List Char) :
      Matches r1 w1 → Matches r2 w2 → Matches (RE.seq r1 r2) (w1 ++ w2)
  | altL (r1 r2 : RE) (w : List Char) : Matches r1 w → Matches (RE.alt r1 r2) w
  | altR (r1 r2 : RE) (w : List Char) : Matches r2 w → Matches (RE.alt r1 r2) w
  | starNil (r : RE) : Matches (RE.star r) []
  | starCons (r : RE) (w1 w2 : List Char) :
      Matches r w1 → Matches (RE.star r) w2 → Matches (RE.star r) (w1 ++ w2)

/-- The engine that evaluates bare columns on the first row of each group. -/
def firstRowEngine : Engine := fun _ => 0

/-- The engine that evaluates bare columns on the last row of each group. -/
def lastRowEngine : Engine := fun g => g.length - 1

/-! ## The lookup -/

theorem topById_eq_none_iff (l : List Row) : topById l = none ↔ l = [] := by
  cases l with
  | nil => simp [topById]
  | cons r rs =>
    simp only [topById]
    cases h : topById rs with
    | none => simp
    | some m => by_cases hm : m.id < r.id <;> simp [hm]

theorem topById_mem {l : List Row} {m : Row} (h : topById l = some m) : m ∈ l := by
  induction l generalizing m with
  | nil => simp [topById] at h
  | cons r rs ih =>
    simp only [topById] at h
    cases ht : topById rs with
    | none =>
      rw [ht] at h
      simp only [Option.some.injEq] at h
      simp [h]
    | some t =>
      rw [ht] at h
      by_cases hlt : t.id < r.id
      · simp only [hlt, if_true, Option.some.injEq] at h
        simp [h]
      · simp only [hlt, if_false, Option.some.injEq] at h
        subst h
        exact List.mem_cons_of_mem _ (ih ht)

theorem topById_max {l : List Row} {m : Row} (h : topById l = some m) :
    ∀ x ∈ l, x.id ≤ m.id := by
  induction l generalizing m with
  | nil => simp
  | cons r rs ih =>
    simp only [topById] at h
    intro x hx
    cases ht : topById rs with
    | none =>
      rw [ht] at h
      simp only [Option.some.injEq] at h
      have hnil : rs = [] := (topById_eq_none_iff rs).mp ht
      subst hnil
      simp only [List.mem_singleton] at hx
      subst hx; subst h; exact le_refl _
    | some t =>
      rw [ht] at h
      have iht := ih ht
      rcases List.mem_cons.mp hx with hxr | hxr
      · subst hxr
        by_cases hlt : t.id < x.id
        · simp only [hlt, if_true, Option.some.injEq] at h
          subst h; exact le_refl _
        · simp only [hlt, if_false, Option.some.injEq] at h
          subst h; exact Nat.le_of_not_lt hlt
      · by_cases hlt : t.id < r.id
        · simp only [hlt, if_true, Option.some.injEq] at h
          subst h; exact le_trans (iht x hxr) (Nat.le_of_lt hlt)
        · simp only [hlt, if_false, Option.some.injEq] at h
          subst h; exact iht x hxr

theorem topById_append_new (l : List Row) (r : Row) (h : ∀ x ∈ l, x.id < r.id) :
    topById (l ++ [r]) = some r := by
  induction l with
  | nil => simp [topById]
  | cons a as ih =>
    have ih1 := ih (fun x hx => h x (List.mem_cons_of_mem _ hx))
    have ha : a.id < r.id := h a (List.mem_cons_self _ _)
    have : ¬ r.id < a.id := Nat.not_lt.mpr (Nat.le_of_lt ha)
    rw [List.cons_append]
    simp only [topById]
    rw [ih1]
    simp [this]

theorem lt_nextId {db : Store} {r : Row} (h : r ∈ db) : r.id < nextId db := by
  unfold nextId
  induction db with
  | nil => simp at h
  | cons a as ih =>
    simp only [List.map_cons, List.foldr_cons]
    rcases List.mem_cons.mp h with h1 | h1
    · subst h1; omega
    · have := ih h1; omega

theorem mem_selectPair {db : Store} {u d : String} {r : Row} :
    r ∈ selectPair db u d ↔ r ∈ db ∧ r.url = u ∧ r.dst = d := by
  simp [selectPair, List.mem_filter]

theorem selectPair_append (db : Store) (r : Row) (u d : String) :
    selectPair (db ++ [r]) u d
      = selectPair db u d ++ (if r.url = u ∧ r.dst = d then [r] else []) := by
  unfold selectPair
  rw [List.filter_append]
  by_cases h : r.url = u ∧ r.dst = d
  · simp [h, List.filter_cons]
  · have : ¬ (r.url = u ∧ r.dst = d) := h
    simp only [h, if_false]
    congr 1
    simp only [List.filter_cons, List.filter_nil]
    have hb : (r.url == u && r.dst == d) = false := by
      simp only [Bool.and_eq_false_iff, beq_eq_false_iff_ne, ne_eq]
      by_cases h1 : r.url = u
      · right; intro h2; exact h ⟨h1, h2⟩
      · left; exact h1
    simp [hb]

theorem queryLast_isSome_iff (db : Store) (u d : String) :
    (queryLast db u d).isSome = true ↔ ∃ r ∈ db, r.url = u ∧ r.dst = d := by
  unfold queryLast
  constructor
  · intro h
    obtain ⟨m, hm⟩ := Option.isSome_iff_exists.mp h
    have := mem_selectPair.mp (topById_mem hm)
    exact ⟨m, this⟩
  · rintro ⟨r, hr, hu, hd⟩
    cases ht : topById (selectPair db u d) with
    | some m => rfl
    | none =>
      have hnil := (topById_eq_none_iff _).mp ht
      have : r ∈ selectPair db u d := mem_selectPair.mpr ⟨hr, hu, hd⟩
      rw [hnil] at this
      simp at this

theorem queryLast_eq_none_iff (db : Store) (u d : String) :
    queryLast db u d = none ↔ ∀ r ∈ db, ¬ (r.url = u ∧ r.dst = d) := by
  unfold queryLast
  rw [topById_eq_none_iff]
  constructor
  · intro h r hr hp
    have : r ∈ selectPair db u d := mem_selectPair.mpr ⟨hr, hp⟩
    rw [h] at this
    simp at this
  · intro h
    apply List.eq_nil_iff_forall_not_mem.mpr
    intro r hr
    have := mem_selectPair.mp hr
    exact h r this.1 this.2

theorem queryLast_insertRow_same (db : Store) (u n s d : String) (t : Time) :
    queryLast (insertRow db u n s d t) u d = some ⟨nextId db, u, n, s, d, t⟩ := by
  unfold queryLast insertRow
  rw [selectPair_append]
  simp only [and_self, if_true]
  apply topById_append_new
  intro x hx
  exact lt_nextId (mem_selectPair.mp hx).1

theorem queryCount_insertRow_same (db : Store) (u n s d : String) (t : Time) :
    queryCount (insertRow db u n s d t) u d = queryCount db u d + 1 := by
  unfold queryCount insertRow
  rw [selectPair_append]
  simp

theorem selectPair_insertRow_other (db : Store) (u n s d d2 : String) (t : Time) (h : d ≠ d2) :
    selectPair (insertRow db u n s d t) u d2 = selectPair db u d2 := by
  unfold insertRow
  rw [selectPair_append]
  simp [h]

/-! ## handleURL: the store and the notices -/

theorem handleURL_store_of_ok (env : URLEnv) (db : Store) (line : Line) (dst url : String)
    (hb : env.beginFails = false) (hi : env.insertFails = false)
    (hc : env.commitFails = false) :
    (handleURL env db line dst url).store
      = insertRow db url line.nick line.raw dst env.insertTime := by
  simp [handleURL, deferredInsert, hb, hi, hc]

theorem handleURL_store_cases (env : URLEnv) (db : Store) (line : Line) (dst url : String) :
    (handleURL env db line dst url).store = db ∨
    (handleURL env db line dst url).store
      = insertRow db url line.nick line.raw dst env.insertTime := by
  unfold handleURL deferredInsert
  by_cases hb : env.beginFails = true
  · simp [hb]
  · by_cases hi : env.insertFails = true
    · simp [hb, hi]
    · by_cases hc : env.commitFails = true
      · simp [hb, hi, hc]
      · simp [hb, hi, hc]

theorem handleURL_notices_of_none (env : URLEnv) (db : Store) (line : Line) (dst url : String)
    (h : queryLast db url dst = none) : (handleURL env db line dst url).notices = [] := by
  unfold handleURL lookupNotices
  by_cases hb : env.beginFails = true
  · simp [hb]
  · by_cases hl : env.lookupFails = true
    · simp [hb, hl]
    · simp [hb, hl, h]

theorem handleURL_notices_of_some (env : URLEnv) (db : Store) (line : Line) (dst url : String)
    (prior : Row) (hb : env.beginFails = false) (hl : env.lookupFails = false)
    (hc : env.countFails = false) (h : queryLast db url dst = some prior) :
    (handleURL env db line dst url).notices
      = [⟨dst, noticeText url (formatDuration (env.now.Sub prior.timestamp)) prior.who
          (queryCount db url dst)⟩] := by
  simp [handleURL, lookupNotices, hb, hl, hc, h, seenMessage, noticeText, Row.who]

theorem queryCount_eq_zero_iff (db : Store) (u d : String) :
    queryCount db u d = 0 ↔ queryLast db u d = none := by
  unfold queryCount queryLast
  rw [topById_eq_none_iff, List.length_eq_zero]

theorem insertRow_WF (db : Store) (u n s d : String) (t : Time) (h : db.WF) :
    (insertRow db u n s d t).WF := by
  unfold Store.WF insertRow at *
  rw [List.map_append, List.nodup_append]
  refine ⟨h, by simp, ?_⟩
  intro a ha hb
  simp only [List.map_cons, List.map_nil, List.mem_singleton] at hb
  obtain ⟨r, hr, hra⟩ := List.mem_map.mp ha
  have := lt_nextId hr
  omega

theorem handleURL_WF (env : URLEnv) (db : Store) (line : Line) (dst url : String)
    (h : db.WF) : (handleURL env db line dst url).store.WF := by
  rcases handleURL_store_cases env db line dst url with hs | hs
  · rw [hs]; exact h
  · rw [hs]; exact insertRow_WF db url line.nick line.raw dst env.insertTime h

/-- C1. A duplicate is identified by the pair (url, destination). For every store the lookup
of `handleURL` finds a row exactly when the store holds a row with that url and that
destination, and the row found is one of that pair with the largest id, the only such row
when ids are unique. Starting from a store with no row for `U`, a call for `(U, D1)`
followed by a call for `(U, D2)`, `D1 ≠ D2`, report no prior event either; and a call for
`(U, D)` that is recorded makes the next call for `(U, D)` find the row of the first (its
nick, src and timestamp) and report it with a prior count of 1. -/
theorem duplicate_identity_is_url_and_dst
    (db : Store) (U D D1 D2 : String) (l1 l2 : Line) (e1 e2 : URLEnv)
    (hfresh : ∀ r ∈ db, r.url ≠ U) (hne : D1 ≠ D2)
    (hrec : e1.beginFails = false ∧ e1.insertFails = false ∧ e1.commitFails = false)
    (hread : e2.beginFails = false ∧ e2.lookupFails = false ∧ e2.countFails = false) :
    (∀ (s : Store) (u d : String),
        ((queryLast s u d).isSome = true ↔ ∃ r ∈ s, r.url = u ∧ r.dst = d)) ∧
    (∀ (s : Store) (u d : String) (r : Row), queryLast s u d = some r →
        r ∈ s ∧ r.url = u ∧ r.dst = d ∧ (∀ x ∈ s, x.url = u → x.dst = d → x.id ≤ r.id) ∧
        (s.WF → ∀ x ∈ s, x.url = u → x.dst = d → r.id ≤ x.id → x = r)) ∧
    (queryLast db U D1 = none ∧ (handleURL e1 db l1 D1 U).notices = [] ∧
      queryLast (handleURL e1 db l1 D1 U).store U D2 = none ∧
      (handleURL e2 (handleURL e1 db l1 D1 U).store l2 D2 U).notices = []) ∧
    (queryLast (handleURL e1 db l1 D U).store U D
        = some ⟨nextId db, U, l1.nick, l1.raw, D, e1.insertTime⟩ ∧
      (handleURL e2 (handleURL e1 db l1 D U).store l2 D U).notices
        = [⟨D, noticeText U (formatDuration (e2.now.Sub e1.insertTime))
              (if l1.nick = "" then l1.raw else l1.nick) 1⟩]) := by
  have hnone : ∀ d, queryLast db U d = none := fun d =>
    (queryLast_eq_none_iff db U d).mpr (fun r hr hp => hfresh r hr hp.1)
  refine ⟨queryLast_isSome_iff, ?_, ?_, ?_⟩
  · intro s u d r h
    have hm := mem_selectPair.mp (topById_mem h)
    have hmax : ∀ x ∈ s, x.url = u → x.dst = d → x.id ≤ r.id := fun x hx hu hd =>
      topById_max h x (mem_selectPair.mpr ⟨hx, hu, hd⟩)
    refine ⟨hm.1, hm.2.1, hm.2.2, hmax, ?_⟩
    intro hwf x hx hu hd hle
    exact List.inj_on_of_nodup_map hwf hx hm.1 (Nat.le_antisymm (hmax x hx hu hd) hle)
  · have hsecond : queryLast (handleURL e1 db l1 D1 U).store U D2 = none := by
      rcases handleURL_store_cases e1 db l1 D1 U with h | h
      · rw [h]; exact hnone D2
      · rw [h]
        unfold queryLast
        rw [selectPair_insertRow_other db U l1.nick l1.raw D1 D2 e1.insertTime hne]
        exact hnone D2
    exact ⟨hnone D1, handleURL_notices_of_none e1 db l1 D1 U (hnone D1), hsecond,
      handleURL_notices_of_none e2 _ l2 D2 U hsecond⟩
  · have hstore := handleURL_store_of_ok e1 db l1 D U hrec.1 hrec.2.1 hrec.2.2
    have hlast := queryLast_insertRow_same db U l1.nick l1.raw D e1.insertTime
    rw [hstore]
    refine ⟨hlast, ?_⟩
    rw [handleURL_notices_of_some e2 _ l2 D U _ hread.1 hread.2.1 hread.2.2 hlast]
    rw [queryCount_insertRow_same, (queryCount_eq_zero_iff db U D).mpr (hnone D)]
    rfl

/-- C1, at a concrete input: two sightings of one url in `#a` and `#b`, and two in `#a`. -/
theorem duplicate_identity_is_url_and_dst_witness :
    (handleURL ⟨false, false, false, false, false, ⟨60000000000, 1, 1, 0, 1, 0⟩,
        ⟨60000000000, 1, 1, 0, 1, 0⟩⟩
      (handleURL ⟨false, false, false, false, false, ⟨0, 1, 1, 0, 0, 0⟩, ⟨0, 1, 1, 0, 0, 0⟩⟩
        [] ⟨"al", "al!u@h"⟩ "#a" "http://x.org/").store
      ⟨"bo", "bo!u@h"⟩ "#b" "http://x.org/").notices = [] ∧
    (handleURL ⟨false, false, false, false, false, ⟨60000000000, 1, 1, 0, 1, 0⟩,
        ⟨60000000000, 1, 1, 0, 1, 0⟩⟩
      (handleURL ⟨false, false, false, false, false, ⟨0, 1, 1, 0, 0, 0⟩, ⟨0, 1, 1, 0, 0, 0⟩⟩
        [] ⟨"al", "al!u@h"⟩ "#a" "http://x.org/").store
      ⟨"bo", "bo!u@h"⟩ "#a" "http://x.org/").notices
      = [⟨"#a", noticeText "http://x.org/"
          (formatDuration (Time.Sub ⟨60000000000, 1, 1, 0, 1, 0⟩ ⟨0, 1, 1, 0, 0, 0⟩))
          (if ("al" : String) = "" then "al!u@h" else "al") 1⟩] :=
  have h := duplicate_identity_is_url_and_dst [] "http://x.org/" "#a" "#a" "#b"
    ⟨"al", "al!u@h"⟩ ⟨"bo", "bo!u@h"⟩
    ⟨false, false, false, false, false, ⟨0, 1, 1, 0, 0, 0⟩, ⟨0, 1, 1, 0, 0, 0⟩⟩
    ⟨false, false, false, false, false, ⟨60000000000, 1, 1, 0, 1, 0⟩,
      ⟨60000000000, 1, 1, 0, 1, 0⟩⟩
    (by simp) (by decide) (by decide) (by decide)
  ⟨h.2.2.1.2.2.2, h.2.2.2.2⟩

/-- C2, as stated, fails: the transaction begins and the INSERT succeeds, but the commit
returns an error; the row is not persisted and the store is unchanged. -/
theorem insert_ok_commit_fails_loses_row :
    (⟨false, false, false, false, true, ⟨0, 1, 1, 0, 0, 0⟩, ⟨0, 1, 1, 0, 0, 0⟩⟩ : URLEnv).beginFails
      = false ∧
    (⟨false, false, false, false, true, ⟨0, 1, 1, 0, 0, 0⟩, ⟨0, 1, 1, 0, 0, 0⟩⟩ : URLEnv).insertFails
      = false ∧
    (handleURL ⟨false, false, false, false, true, ⟨0, 1, 1, 0, 0, 0⟩, ⟨0, 1, 1, 0, 0, 0⟩⟩
      [] ⟨"al", "al!u@h"⟩ "#a" "http://x.org/").store = [] ∧
    ¬ (∀ (env : URLEnv) (db : Store) (line : Line) (dst url : String),
        env.beginFails = false → env.insertFails = false →
        (handleURL env db line dst url).store
          = db ++ [⟨nextId db, url, line.nick, line.raw, dst, env.insertTime⟩]) := by
  refine ⟨rfl, rfl, by decide, ?_⟩
  intro h
  have := h ⟨false, false, false, false, true, ⟨0, 1, 1, 0, 0, 0⟩, ⟨0, 1, 1, 0, 0, 0⟩⟩
    [] ⟨"al", "al!u@h"⟩ "#a" "http://x.org/" rfl rfl
  revert this
  decide

/-- C2, amended. For every store and every outcome of the lookup (no prior row, prior row,
lookup failure, count failure), when the transaction begins, the INSERT succeeds and the
commit succeeds, the store after the call is the store before it with exactly one row
appended, `(url, nick, src, dst, time of the insert)`; when the lookup or the count fails no
notice is sent; and in every case, failures included, the store after the call is the store
before it followed by at most one row: no row is modified or deleted. -/
theorem every_sighting_appended_when_committed
    (env : URLEnv) (db : Store) (line : Line) (dst url : String)
    (hb : env.beginFails = false) (hi : env.insertFails = false)
    (hc : env.commitFails = false) :
    (handleURL env db line dst url).store
      = db ++ [⟨nextId db, url, line.nick, line.raw, dst, env.insertTime⟩] ∧
    (env.lookupFails = true ∨ env.countFails = true →
      (handleURL env db line dst url).notices = []) ∧
    (∀ env1 : URLEnv, ∃ tail : List Row,
      (handleURL env1 db line dst url).store = db ++ tail ∧ tail.length ≤ 1) := by
  refine ⟨handleURL_store_of_ok env db line dst url hb hi hc, ?_, ?_⟩
  · intro h
    unfold handleURL lookupNotices
    rcases h with h | h
    · simp [hb, h]
    · simp only [hb, h]
      cases queryLast db url dst <;> simp
  · intro env1
    rcases handleURL_store_cases env1 db line dst url with h | h
    · exact ⟨[], by simp [h], by simp⟩
    · exact ⟨[⟨nextId db, url, line.nick, line.raw, dst, env1.insertTime⟩], by
        rw [h]; rfl, by simp⟩

/-- C2 amended, at a concrete input: the lookup fails, the row is appended, no notice. -/
theorem every_sighting_appended_when_committed_witness :
    (handleURL ⟨false, true, false, false, false, ⟨0, 1, 1, 0, 0, 0⟩, ⟨5, 1, 1, 0, 0, 0⟩⟩
      [⟨1, "http://x.org/", "al", "al!u@h", "#a", ⟨0, 1, 1, 0, 0, 0⟩⟩]
      ⟨"bo", "bo!u@h"⟩ "#a" "http://x.org/").store
      = [⟨1, "http://x.org/", "al", "al!u@h", "#a", ⟨0, 1, 1, 0, 0, 0⟩⟩]
        ++ [⟨nextId [⟨1, "http://x.org/", "al", "al!u@h", "#a", ⟨0, 1, 1, 0, 0, 0⟩⟩],
            "http://x.org/", "bo", "bo!u@h", "#a", ⟨5, 1, 1, 0, 0, 0⟩⟩] ∧
    (handleURL ⟨false, true, false, false, false, ⟨0, 1, 1, 0, 0, 0⟩, ⟨5, 1, 1, 0, 0, 0⟩⟩
      [⟨1, "http://x.org/", "al", "al!u@h", "#a", ⟨0, 1, 1, 0, 0, 0⟩⟩]
      ⟨"bo", "bo!u@h"⟩ "#a" "http://x.org/").notices = [] :=
  have h := every_sighting_appended_when_committed
    ⟨false, true, false, false, false, ⟨0, 1, 1, 0, 0, 0⟩, ⟨5, 1, 1, 0, 0, 0⟩⟩
    [⟨1, "http://x.org/", "al", "al!u@h", "#a", ⟨0, 1, 1, 0, 0, 0⟩⟩]
    ⟨"bo", "bo!u@h"⟩ "#a" "http://x.org/" rfl rfl rfl
  ⟨h.1, h.2.1 (Or.inl rfl)⟩

/-! ## Replaying identical sightings -/

theorem storeAfter_append (line : Line) (dst url : String) (pre post : List URLEnv)
    (db : Store) :
    storeAfter line dst url (pre ++ post) db
      = storeAfter line dst url post (storeAfter line dst url pre db) := by
  induction pre generalizing db with
  | nil => rfl
  | cons e es ih => simp [storeAfter, ih]

theorem queryCount_storeAfter (line : Line) (D U : String) (envs : List URLEnv)
    (hok : ∀ e ∈ envs, e.healthy) (db : Store) :
    queryCount (storeAfter line D U envs db) U D = queryCount db U D + envs.length := by
  induction envs generalizing db with
  | nil => simp [storeAfter]
  | cons e es ih =>
    have he : e.healthy := hok e (List.mem_cons_self _ _)
    have hes : ∀ x ∈ es, x.healthy := fun x hx => hok x (List.mem_cons_of_mem _ hx)
    simp only [storeAfter, List.length_cons]
    rw [ih hes, handleURL_store_of_ok e db line D U he.1 he.2.2.2.1 he.2.2.2.2,
      queryCount_insertRow_same]
    omega

theorem queryLast_storeAfter (line : Line) (D U : String) (envs : List URLEnv)
    (hok : ∀ e ∈ envs, e.healthy) (db : Store) (p : URLEnv)
    (hp : envs.getLast? = some p) :
    ∃ i, queryLast (storeAfter line D U envs db) U D
      = some ⟨i, U, line.nick, line.raw, D, p.insertTime⟩ := by
  induction envs generalizing db with
  | nil => simp at hp
  | cons e es ih =>
    have he : e.healthy := hok e (List.mem_cons_self _ _)
    have hes : ∀ x ∈ es, x.healthy := fun x hx => hok x (List.mem_cons_of_mem _ hx)
    simp only [storeAfter]
    cases es with
    | nil =>
      simp only [List.getLast?_singleton, Option.some.injEq] at hp
      subst hp
      simp only [storeAfter]
      rw [handleURL_store_of_ok e db line D U he.1 he.2.2.2.1 he.2.2.2.2]
      exact ⟨_, queryLast_insertRow_same db U line.nick line.raw D e.insertTime⟩
    | cons e2 es2 =>
      have hp2 : (e2 :: es2).getLast? = some p := by
        rw [List.getLast?_cons_cons] at hp
        exact hp
      exact ih hes _ hp2

/-- C3. Starting from a store with no row for `(U, D)`, `N` identical calls of `handleURL`
for `(U, D)` in which no database call fails leave exactly `N` rows for the pair; the call
number `k` (after `k - 1` earlier ones) runs on a store that holds `k - 1` rows for the pair,
the first call sends no notice and every later one sends one notice that prints `k - 1` as
the total: the count is read before the call inserts its own row. -/
theorem replay_counts_prior_sightings
    (db : Store) (U D : String) (line : Line) (envs : List URLEnv)
    (hfresh : ∀ r ∈ db, ¬ (r.url = U ∧ r.dst = D))
    (hok : ∀ e ∈ envs, e.healthy) :
    queryCount (storeAfter line D U envs db) U D = envs.length ∧
    ∀ (pre : List URLEnv) (e : URLEnv) (post : List URLEnv), envs = pre ++ e :: post →
      queryCount (storeAfter line D U pre db) U D = pre.length ∧
      (handleURL e (storeAfter line D U pre db) line D U).notices =
        match pre.getLast? with
        | none => []
        | some p =>
          [⟨D, noticeText U (formatDuration (e.now.Sub p.insertTime))
                (if line.nick = "" then line.raw else line.nick) pre.length⟩] := by
  have hzero : queryCount db U D = 0 :=
    (queryCount_eq_zero_iff db U D).mpr ((queryLast_eq_none_iff db U D).mpr hfresh)
  refine ⟨by rw [queryCount_storeAfter line D U envs hok db, hzero]; omega, ?_⟩
  intro pre e post hsplit
  have hpre : ∀ x ∈ pre, x.healthy := fun x hx => hok x (by rw [hsplit]; simp [hx])
  have he : e.healthy := hok e (by rw [hsplit]; simp)
  have hcount : queryCount (storeAfter line D U pre db) U D = pre.length := by
    rw [queryCount_storeAfter line D U pre hpre db, hzero]; omega
  refine ⟨hcount, ?_⟩
  cases hlast : pre.getLast? with
  | none =>
    have hnil : pre = [] := List.getLast?_eq_none_iff.mp hlast
    subst hnil
    simp only [storeAfter]
    exact handleURL_notices_of_none e db line D U ((queryLast_eq_none_iff db U D).mpr hfresh)
  | some p =>
    obtain ⟨i, hi⟩ := queryLast_storeAfter line D U pre hpre db p hlast
    rw [handleURL_notices_of_some e _ line D U _ he.1 he.2.1 he.2.2.1 hi, hcount]
    rfl

/-- C3, at a concrete input: three sightings of one url in `#a`, on an empty store. -/
theorem replay_counts_prior_sightings_witness :
    queryCount (storeAfter ⟨"al", "al!u@h"⟩ "#a" "http://x.org/"
      [⟨false, false, false, false, false, ⟨0, 1, 1, 0, 0, 0⟩, ⟨0, 1, 1, 0, 0, 0⟩⟩,
       ⟨false, false, false, false, false, ⟨1, 1, 1, 0, 0, 0⟩, ⟨1, 1, 1, 0, 0, 0⟩⟩,
       ⟨false, false, false, false, false, ⟨2, 1, 1, 0, 0, 0⟩, ⟨2, 1, 1, 0, 0, 0⟩⟩] [])
      "http://x.org/" "#a" = 3 :=
  (replay_counts_prior_sightings [] "http://x.org/" "#a" ⟨"al", "al!u@h"⟩
    [⟨false, false, false, false, false, ⟨0, 1, 1, 0, 0, 0⟩, ⟨0, 1, 1, 0, 0, 0⟩⟩,
     ⟨false, false, false, false, false, ⟨1, 1, 1, 0, 0, 0⟩, ⟨1, 1, 1, 0, 0, 0⟩⟩,
     ⟨false, false, false, false, false, ⟨2, 1, 1, 0, 0, 0⟩, ⟨2, 1, 1, 0, 0, 0⟩⟩]
    (by simp) (by decide)).1

/-! ## The duplicate notice -/

/-- C4. When the transaction begins, `handleURL` sends a notice if and only if the lookup
and the count succeed and a row for `(url, dst)` exists; it then sends exactly one, to
`dst`, with the text "URL '<url>' was last seen <formatDuration (now - prior.timestamp)>
ago by <who> (<n> total)", where `prior` is the row the lookup returns, `<who>` its nick, or
its src when the nick is empty, and `<n>` the number of rows of the pair before the call.
When no such row exists it sends none, and the sighting is still recorded (given that the
INSERT and the commit succeed). -/
theorem notice_iff_prior_event
    (env : URLEnv) (db : Store) (line : Line) (dst url : String)
    (hb : env.beginFails = false) :
    ((handleURL env db line dst url).notices ≠ [] ↔
      (env.lookupFails = false ∧ env.countFails = false ∧
        ∃ r ∈ db, r.url = url ∧ r.dst = dst)) ∧
    (∀ prior : Row, queryLast db url dst = some prior →
      env.lookupFails = false → env.countFails = false →
      (handleURL env db line dst url).notices
        = [⟨dst, "URL \x27" ++ url ++ "\x27 was last seen "
              ++ formatDuration (env.now.Sub prior.timestamp) ++ " ago by "
              ++ (if prior.nick = "" then prior.src else prior.nick) ++ " ("
              ++ toString (queryCount db url dst) ++ " total)"⟩]) ∧
    ((∀ r ∈ db, ¬ (r.url = url ∧ r.dst = dst)) →
      (handleURL env db line dst url).notices = [] ∧
      (env.insertFails = false → env.commitFails = false →
        (handleURL env db line dst url).store
          = db ++ [⟨nextId db, url, line.nick, line.raw, dst, env.insertTime⟩])) := by
  refine ⟨?_, ?_, ?_⟩
  · cases hq : queryLast db url dst with
    | none =>
      rw [handleURL_notices_of_none env db line dst url hq]
      have hno := (queryLast_eq_none_iff db url dst).mp hq
      constructor
      · intro h; exact absurd rfl h
      · rintro ⟨_, _, r, hr, hp⟩
        exact absurd hp (hno r hr)
    | some prior =>
      have hex : ∃ r ∈ db, r.url = url ∧ r.dst = dst :=
        (queryLast_isSome_iff db url dst).mp (by rw [hq]; rfl)
      by_cases hl : env.lookupFails = true
      · simp [handleURL, lookupNotices, hb, hl]
      · by_cases hc : env.countFails = true
        · simp [handleURL, lookupNotices, hb, hl, hc, hq]
        · have hl2 : env.lookupFails = false := by simpa using hl
          have hc2 : env.countFails = false := by simpa using hc
          rw [handleURL_notices_of_some env db line dst url prior hb hl2 hc2 hq]
          simp [hl2, hc2, hex]
  · intro prior hq hl hc
    rw [handleURL_notices_of_some env db line dst url prior hb hl hc hq]
    rfl
  · intro hno
    refine ⟨handleURL_notices_of_none env db line dst url
      ((queryLast_eq_none_iff db url dst).mpr hno), ?_⟩
    intro hi hc
    exact handleURL_store_of_ok env db line dst url hb hi hc

set_option maxRecDepth 100000 in
/-- C4, at a concrete input: a row with an empty nick, seen again 90 seconds later. -/
theorem notice_iff_prior_event_witness :
    (handleURL ⟨false, false, false, false, false, ⟨90000000000, 1, 1, 0, 1, 30⟩,
        ⟨90000000000, 1, 1, 0, 1, 30⟩⟩
      [⟨1, "http://x.org/", "", "al!u@h", "#a", ⟨0, 1, 1, 0, 0, 0⟩⟩]
      ⟨"bo", "bo!u@h"⟩ "#a" "http://x.org/").notices
      = [⟨"#a", "URL \x27http://x.org/\x27 was last seen 1 minute ago by al!u@h (1 total)"⟩] := by
  have h := (notice_iff_prior_event
    ⟨false, false, false, false, false, ⟨90000000000, 1, 1, 0, 1, 30⟩,
      ⟨90000000000, 1, 1, 0, 1, 30⟩⟩
    [⟨1, "http://x.org/", "", "al!u@h", "#a", ⟨0, 1, 1, 0, 0, 0⟩⟩]
    ⟨"bo", "bo!u@h"⟩ "#a" "http://x.org/" rfl).2.1
    ⟨1, "http://x.org/", "", "al!u@h", "#a", ⟨0, 1, 1, 0, 0, 0⟩⟩ (by decide) rfl rfl
  rw [h]
  decide

/-! ## handleCommand -/

/-- C8. A `handleCommand` call that is not private sends exactly one notice, the fixed
rejection, for every argument ("help" included) and every store; the result is the same
whatever the store holds and whatever the database would answer, so nothing is read. -/
theorem nonprivate_command_is_rejected
    (env env1 : CmdEnv) (db db1 : Store) (arg dst : String) :
    handleCommand env db arg dst false
      = [⟨dst, "urls: URL querying must be done over private messages"⟩] ∧
    handleCommand env db "help" dst false
      = [⟨dst, "urls: URL querying must be done over private messages"⟩] ∧
    handleCommand env db arg dst false = handleCommand env1 db1 arg dst false := by
  simp [handleCommand]

theorem listRows_targets (env : CmdEnv) (reply : String)
    (hscan : ∀ k, env.scanFailsAt k = none) (rows : List Row) (k : Nat) (n : Int) :
    ∀ m ∈ listRows env reply rows k n, m.target = reply := by
  induction rows generalizing k n with
  | nil =>
    intro m hm
    simp only [listRows] at hm
    by_cases hn : n > 0
    · simp only [hn, if_true, List.mem_singleton] at hm
      rw [hm]
    · simp [hn] at hm
  | cons r rs ih =>
    intro m hm
    simp only [listRows, hscan k] at hm
    rcases List.mem_cons.mp hm with h | h
    · rw [h]
    · exact ih (k + 1) (n - 1) m h

set_option maxRecDepth 100000 in
/-- C9. A private `urls` command from `bob` whose first result row fails to scan: the
"Internal error" notice goes to the loop's own variable `dst`, which is empty when the scan
fails before the column `dst`, and holds the row's `dst` when it fails at the column `url`;
in neither case is it `bob`. On every other path the target is the `dst` of the call: all
notices of `handleURL`, and all notices of `handleCommand` when no row fails to scan. -/
theorem scan_error_notice_misses_requester :
    handleCommand ⟨"!", firstRowEngine, false, fun _ => some 0⟩
      [⟨1, "http://a.org/", "al", "al!u@h", "#a", ⟨0, 1, 1, 0, 0, 0⟩⟩] "" "bob" true
      = [⟨"", "urls: Internal error occurred"⟩] ∧
    handleCommand ⟨"!", firstRowEngine, false, fun _ => some 4⟩
      [⟨1, "http://a.org/", "al", "al!u@h", "#a", ⟨0, 1, 1, 0, 0, 0⟩⟩] "" "bob" true
      = [⟨"#a", "urls: Internal error occurred"⟩] ∧
    (∀ (env : URLEnv) (db : Store) (line : Line) (dst url : String),
      ∀ m ∈ (handleURL env db line dst url).notices, m.target = dst) ∧
    (∀ (env : CmdEnv) (db : Store) (arg dst : String) (isPrivate : Bool),
      (∀ k, env.scanFailsAt k = none) →
      ∀ m ∈ handleCommand env db arg dst isPrivate, m.target = dst) := by
  refine ⟨by decide, by decide, ?_, ?_⟩
  · intro env db line dst url m hm
    unfold handleURL lookupNotices at hm
    by_cases hb : env.beginFails = true
    · simp [hb] at hm
    · by_cases hl : env.lookupFails = true
      · simp [hb, hl] at hm
      · cases hq : queryLast db url dst with
        | none => simp [hb, hl, hq] at hm
        | some prior =>
          by_cases hc : env.countFails = true
          · simp [hb, hl, hq, hc] at hm
          · simp [hb, hl, hq, hc] at hm
            rw [hm]
  · intro env db arg dst isPrivate hscan m hm
    unfold handleCommand at hm
    cases isPrivate with
    | false =>
      simp at hm
      rw [hm]
    | true =>
      by_cases ha : TrimSpace arg = "help"
      · simp [ha] at hm
        rcases hm with h | h <;> rw [h]
      · by_cases hq : env.queryFails = true
        · simp [ha, hq] at hm
          rw [hm]
        · simp only [ha, hq] at hm
          simp at hm
          exact listRows_targets env dst hscan _ _ _ m hm

/-! ## The listing of a private command -/

theorem listRows_of_scans_ok (env : CmdEnv) (reply : String)
    (hscan : ∀ k, env.scanFailsAt k = none) (rows : List Row) (k : Nat) (n : Int) :
    listRows env reply rows k n
      = rows.map (fun r => (⟨reply, r.timestamp.Format ++ ": " ++ r.dst ++ ": " ++ r.url
            ++ " by " ++ (if r.nick = "" then r.src else r.nick)⟩ : Notice))
        ++ (if n - rows.length > 0 then [⟨reply, "(no more URLs)"⟩] else []) := by
  induction rows generalizing k n with
  | nil => simp [listRows]
  | cons r rs ih =>
    simp only [listRows, hscan k, List.map_cons, List.cons_append, List.length_cons]
    rw [ih (k + 1) (n - 1)]
    have : n - 1 - (rs.length : Int) = n - ((rs.length + 1 : Nat) : Int) := by
      push_cast; ring
    rw [this]
    rfl

theorem length_filterMap_of_isSome {α β : Type} (f : α → Option β) (l : List α)
    (h : ∀ x ∈ l, (f x).isSome = true) : (l.filterMap f).length = l.length := by
  induction l with
  | nil => rfl
  | cons a as ih =>
    have ha := h a (List.mem_cons_self _ _)
    obtain ⟨b, hb⟩ := Option.isSome_iff_exists.mp ha
    rw [List.filterMap_cons, hb]
    simp [ih (fun x hx => h x (List.mem_cons_of_mem _ hx))]

theorem groupByUrl_ne_nil (db : Store) : ∀ g ∈ groupByUrl db, g ≠ [] := by
  intro g hg
  unfold groupByUrl at hg
  obtain ⟨u, hu, rfl⟩ := List.mem_map.mp hg
  have hu2 : u ∈ db.map Row.url := List.mem_dedup.mp hu
  obtain ⟨r, hr, hru⟩ := List.mem_map.mp hu2
  intro hnil
  have : r ∈ db.filter (fun x => x.url == u) := by
    simp [List.mem_filter, hr, hru]
  rw [hnil] at this
  simp at this

theorem length_queryRecent (eng : Engine) (db : Store) (limit : Nat) :
    (queryRecent eng db limit).length = min limit (db.map Row.url).dedup.length := by
  unfold queryRecent
  rw [List.length_take, List.length_insertionSort, length_filterMap_of_isSome]
  · simp [groupByUrl]
  · intro g hg
    have hne := groupByUrl_ne_nil db g hg
    have hpos : 0 < g.length := List.length_pos.mpr hne
    have hlt : eng g % g.length < g.length := Nat.mod_lt _ hpos
    rw [List.get?_eq_get hlt]
    rfl

/-- C6. A private call of `handleCommand` whose argument is not "help", whose query
succeeds and whose `r` result rows all scan sends exactly the `r` entry lines, in the order
of the query, each "<MM-DD HH:MM:SS>: <row dst>: <row url> by <row nick, or row src if the
nick is empty>", followed by one "(no more URLs)" line exactly when `r < 5`; `r` is the
number of distinct urls, capped at 5. So 12 distinct urls give 5 lines and no marker, and 3
distinct urls give 3 lines and the marker. -/
theorem private_listing_lines_and_marker
    (env : CmdEnv) (db : Store) (arg dst : String)
    (harg : TrimSpace arg ≠ "help") (hq : env.queryFails = false)
    (hscan : ∀ k, env.scanFailsAt k = none) :
    handleCommand env db arg dst true
      = (queryRecent env.engine db 5).map
          (fun r => (⟨dst, r.timestamp.Format ++ ": " ++ r.dst ++ ": " ++ r.url ++ " by "
            ++ (if r.nick = "" then r.src else r.nick)⟩ : Notice))
        ++ (if (queryRecent env.engine db 5).length < 5
              then [⟨dst, "(no more URLs)"⟩] else []) ∧
    (queryRecent env.engine db 5).length = min 5 (db.map Row.url).dedup.length ∧
    ((db.map Row.url).dedup.length = 12 →
      (handleCommand env db arg dst true).length = 5 ∧
      handleCommand env db arg dst true
        = (queryRecent env.engine db 5).map
            (fun r => (⟨dst, r.timestamp.Format ++ ": " ++ r.dst ++ ": " ++ r.url ++ " by "
              ++ (if r.nick = "" then r.src else r.nick)⟩ : Notice))) ∧
    ((db.map Row.url).dedup.length = 3 →
      (queryRecent env.engine db 5).length = 3 ∧
      (handleCommand env db arg dst true).length = 4 ∧
      handleCommand env db arg dst true
        = (queryRecent env.engine db 5).map
            (fun r => (⟨dst, r.timestamp.Format ++ ": " ++ r.dst ++ ": " ++ r.url ++ " by "
              ++ (if r.nick = "" then r.src else r.nick)⟩ : Notice))
          ++ [⟨dst, "(no more URLs)"⟩]) := by
  have hlen := length_queryRecent env.engine db 5
  have hmain : handleCommand env db arg dst true
      = (queryRecent env.engine db 5).map
          (fun r => (⟨dst, r.timestamp.Format ++ ": " ++ r.dst ++ ": " ++ r.url ++ " by "
            ++ (if r.nick = "" then r.src else r.nick)⟩ : Notice))
        ++ (if (queryRecent env.engine db 5).length < 5
              then [⟨dst, "(no more URLs)"⟩] else []) := by
    unfold handleCommand
    simp only [Bool.not_true, harg, hq, if_false, Bool.false_eq_true]
    rw [listRows_of_scans_ok env dst hscan]
    congr 1
    by_cases h : (queryRecent env.engine db 5).length < 5
    · have : ((5 : Nat) : Int) - ((queryRecent env.engine db 5).length : Int) > 0 := by omega
      simp [h, this]
    · have : ¬ (((5 : Nat) : Int) - ((queryRecent env.engine db 5).length : Int) > 0) := by
        omega
      simp [h, this]
  refine ⟨hmain, hlen, ?_, ?_⟩
  · intro h12
    have h5 : (queryRecent env.engine db 5).length = 5 := by rw [hlen, h12]; rfl
    have hm := hmain
    simp only [h5, lt_irrefl, if_false, List.append_nil] at hm
    refine ⟨?_, hm⟩
    rw [hm, List.length_map, h5]
  · intro h3
    have hr : (queryRecent env.engine db 5).length = 3 := by rw [hlen, h3]; rfl
    have hm := hmain
    have h35 : (3 : Nat) < 5 := by decide
    simp only [hr, h35, if_true] at hm
    refine ⟨hr, ?_, hm⟩
    rw [hm, List.length_append, List.length_map, hr]
    rfl

set_option maxRecDepth 100000 in
/-- C6, at a concrete input: three rows, two distinct urls, listed for `bob`. -/
theorem private_listing_lines_and_marker_witness :
    handleCommand ⟨"!", lastRowEngine, false, fun _ => none⟩
      [⟨1, "http://a.org/", "al", "al!u@h", "#a", ⟨0, 3, 14, 1, 5, 9⟩⟩,
       ⟨2, "http://b.org/", "", "bo!u@h", "#b", ⟨1, 3, 14, 1, 5, 10⟩⟩,
       ⟨3, "http://a.org/", "cy", "cy!u@h", "#a", ⟨2, 11, 30, 23, 59, 58⟩⟩] " " "bob" true
      = [⟨"bob", "11-30 23:59:58: #a: http://a.org/ by cy"⟩,
         ⟨"bob", "03-14 01:05:10: #b: http://b.org/ by bo!u@h"⟩,
         ⟨"bob", "(no more URLs)"⟩] := by
  have h := (private_listing_lines_and_marker ⟨"!", lastRowEngine, false, fun _ => none⟩
    [⟨1, "http://a.org/", "al", "al!u@h", "#a", ⟨0, 3, 14, 1, 5, 9⟩⟩,
     ⟨2, "http://b.org/", "", "bo!u@h", "#b", ⟨1, 3, 14, 1, 5, 10⟩⟩,
     ⟨3, "http://a.org/", "cy", "cy!u@h", "#a", ⟨2, 11, 30, 23, 59, 58⟩⟩] " " "bob"
    (by decide) rfl (fun _ => rfl)).1
  rw [h]
  decide

/-! ## The matcher finds only texts of the expression -/

theorem starLoop_sound (a : RE) (body : Pos → (Pos → Option Pos) → Option Pos)
    (hbody : ∀ (z : Pos) (k : Pos → Option Pos) (out : Pos), body z k = some out →
      ∃ w rest, Matches a w ∧ z.after = w ++ rest ∧ k ⟨w.reverse ++ z.before, rest⟩ = some out)
    (fuel : Nat) (z : Pos) (k : Pos → Option Pos) (out : Pos)
    (h : starLoop body fuel z k = some out) :
    ∃ w rest, Matches (RE.star a) w ∧ z.after = w ++ rest ∧
      k ⟨w.reverse ++ z.before, rest⟩ = some out := by
  induction fuel generalizing z with
  | zero =>
    simp only [starLoop] at h
    exact ⟨[], z.after, Matches.starNil a, rfl, by simpa using h⟩
  | succ f ih =>
    simp only [starLoop] at h
    cases hb : body z (fun z1 =>
        if z1.after.length < z.after.length then starLoop body f z1 k else none) with
    | none =>
      rw [hb] at h
      exact ⟨[], z.after, Matches.starNil a, rfl, by simpa using h⟩
    | some r =>
      rw [hb] at h
      simp only [Option.some.injEq] at h
      subst h
      obtain ⟨w1, rest1, hm1, hsplit1, hk1⟩ := hbody z _ r hb
      by_cases hlt : rest1.length < z.after.length
      · simp only [hlt, if_true] at hk1
        obtain ⟨w2, rest2, hm2, hsplit2, hk2⟩ := ih _ hk1
        simp only at hsplit2 hk2
        refine ⟨w1 ++ w2, rest2, Matches.starCons a w1 w2 hm1 hm2, ?_, ?_⟩
        · rw [hsplit1, hsplit2, List.append_assoc]
        · rw [List.reverse_append, List.append_assoc]
          exact hk2
      · simp [hlt] at hk1

theorem run_sound (re : RE) : ∀ (z : Pos) (k : Pos → Option Pos) (out : Pos),
    re.run z k = some out →
    ∃ w rest, Matches re w ∧ z.after = w ++ rest ∧
      k ⟨w.reverse ++ z.before, rest⟩ = some out := by
  induction re with
  | eps =>
    intro z k out h
    simp only [RE.run] at h
    exact ⟨[], z.after, Matches.eps, rfl, by simpa using h⟩
  | wordB =>
    intro z k out h
    simp only [RE.run] at h
    by_cases hb : atBoundary z = true
    · simp only [hb, if_true] at h
      exact ⟨[], z.after, Matches.wordB, rfl, by simpa using h⟩
    · simp [hb] at h
  | cls p =>
    intro z k out h
    obtain ⟨b, a⟩ := z
    cases a with
    | nil => simp [RE.run] at h
    | cons c rest =>
      simp only [RE.run] at h
      by_cases hp : p c = true
      · simp only [hp, if_true] at h
        exact ⟨[c], rest, Matches.cls p c hp, rfl, by simpa using h⟩
      · simp [hp] at h
  | seq r1 r2 ih1 ih2 =>
    intro z k out h
    simp only [RE.run] at h
    obtain ⟨w1, rest1, hm1, hs1, hk1⟩ := ih1 z _ out h
    obtain ⟨w2, rest2, hm2, hs2, hk2⟩ := ih2 _ k out hk1
    simp only at hs2 hk2
    refine ⟨w1 ++ w2, rest2, Matches.seq r1 r2 w1 w2 hm1 hm2, ?_, ?_⟩
    · rw [hs1, hs2, List.append_assoc]
    · rw [List.reverse_append, List.append_assoc]
      exact hk2
  | alt r1 r2 ih1 ih2 =>
    intro z k out h
    simp only [RE.run] at h
    cases h1 : r1.run z k with
    | some r =>
      rw [h1] at h
      simp only [Option.some.injEq] at h
      subst h
      obtain ⟨w, rest, hm, hs, hk⟩ := ih1 z k r h1
      exact ⟨w, rest, Matches.altL r1 r2 w hm, hs, hk⟩
    | none =>
      rw [h1] at h
      obtain ⟨w, rest, hm, hs, hk⟩ := ih2 z k out h
      exact ⟨w, rest, Matches.altR r1 r2 w hm, hs, hk⟩
  | star a ih =>
    intro z k out h
    simp only [RE.run] at h
    exact starLoop_sound a a.run ih _ z k out h

theorem between_of_split (b : List Char) (w rest : List Char) :
    between ⟨b, w ++ rest⟩ ⟨w.reverse ++ b, rest⟩ = w := by
  simp [between]

theorem find_sound (re : RE) (a : List Char) : ∀ (b : List Char) (s e : Pos),
    re.find b a = some (s, e) → Matches re (between s e) := by
  induction a with
  | nil =>
    intro b s e h
    simp only [RE.find] at h
    cases hr : re.run ⟨b, []⟩ some with
    | none => rw [hr] at h; simp at h
    | some r =>
      rw [hr] at h
      simp only [Option.map_some', Option.some.injEq, Prod.mk.injEq] at h
      obtain ⟨hs, he⟩ := h
      obtain ⟨w, rest, hm, hsplit, hk⟩ := run_sound re _ _ _ hr
      simp only [Option.some.injEq] at hk hsplit
      rw [← hs, ← he, ← hk, hsplit, between_of_split]
      exact hm
  | cons c cs ih =>
    intro b s e h
    simp only [RE.find] at h
    cases hr : re.run ⟨b, c :: cs⟩ some with
    | none =>
      rw [hr] at h
      exact ih _ s e h
    | some r =>
      rw [hr] at h
      simp only [Option.some.injEq, Prod.mk.injEq] at h
      obtain ⟨hs, he⟩ := h
      obtain ⟨w, rest, hm, hsplit, hk⟩ := run_sound re _ _ _ hr
      simp only [Option.some.injEq] at hk hsplit
      rw [← hs, ← he, ← hk, hsplit, between_of_split]
      exact hm

theorem mem_findAll (re : RE) (fuel : Nat) : ∀ (z : Pos) (prevEnd : Option Nat) (w : List Char),
    w ∈ re.findAll fuel z prevEnd → Matches re w := by
  induction fuel with
  | zero => intro z prevEnd w h; simp [RE.findAll] at h
  | succ f ih =>
    intro z prevEnd w h
    simp only [RE.findAll] at h
    cases hf : re.find z.before z.after with
    | none => rw [hf] at h; simp at h
    | some se =>
      obtain ⟨s, e⟩ := se
      rw [hf] at h
      have hm := find_sound re z.after z.before s e hf
      simp only at h
      by_cases hlen : e.after.length = z.after.length
      · simp only [hlen, if_true] at h
        have hout : ∀ x ∈ (if prevEnd = some s.after.length then [] else [between s e]),
            Matches re x := by
          intro x hx
          by_cases hp : prevEnd = some s.after.length
          · simp [hp] at hx
          · simp only [hp, if_false, List.mem_singleton] at hx
            rw [hx]; exact hm
        cases hza : z.after with
        | nil =>
          rw [hza] at h
          exact hout w h
        | cons c rest =>
          rw [hza] at h
          rcases List.mem_append.mp h with h1 | h1
          · exact hout w h1
          · exact ih _ _ w h1
      · simp only [hlen, if_false] at h
        rcases List.mem_cons.mp h with h1 | h1
        · rw [h1]; exact hm
        · exact ih _ _ w h1

/-! ## Every text of URLRegex ends well -/

theorem matches_cls {p : Char → Bool} {w : List Char} (h : Matches (RE.cls p) w) :
    ∃ c, w = [c] ∧ p c = true := by
  cases h with
  | cls _ c hp => exact ⟨c, rfl, hp⟩

theorem matches_seq {r1 r2 : RE} {w : List Char} (h : Matches (RE.seq r1 r2) w) :
    ∃ w1 w2, w = w1 ++ w2 ∧ Matches r1 w1 ∧ Matches r2 w2 := by
  cases h with
  | seq _ _ w1 w2 h1 h2 => exact ⟨w1, w2, rfl, h1, h2⟩

theorem matches_alt {r1 r2 : RE} {w : List Char} (h : Matches (RE.alt r1 r2) w) :
    Matches r1 w ∨ Matches r2 w := by
  cases h with
  | altL _ _ _ h1 => exact Or.inl h1
  | altR _ _ _ h2 => exact Or.inr h2

theorem matches_star_forall {r : RE} {P : List Char → Prop} (hnil : P [])
    (hstep : ∀ w1 w2, Matches r w1 → P w2 → P (w1 ++ w2)) {w : List Char}
    (h : Matches (RE.star r) w) : P w := by
  generalize hre : RE.star r = re at h
  induction h with
  | eps => exact hnil
  | wordB => exact hnil
  | cls p c hp => cases hre
  | seq r1 r2 w1 w2 h1 h2 _ _ => cases hre
  | altL r1 r2 w h1 _ => cases hre
  | altR r1 r2 w h2 _ => cases hre
  | starNil r0 => exact hnil
  | starCons r0 w1 w2 h1 h2 _ ih2 =>
    cases hre
    exact hstep w1 w2 h1 (ih2 rfl)

/-- Characters that are no parenthesis do not change the search for the opening one. -/
theorem scanOpen_skip (w rest : List Char) (d : Nat)
    (hw : ∀ c ∈ w, c ≠ '(' ∧ c ≠ ')') :
    scanOpen (w.reverse ++ rest) d = scanOpen rest d := by
  induction w generalizing rest with
  | nil => rfl
  | cons c cs ih =>
    have hc := hw c (List.mem_cons_self _ _)
    rw [List.reverse_cons, List.append_assoc,
      ih _ (fun x hx => hw x (List.mem_cons_of_mem _ hx))]
    simp [scanOpen, hc.1, hc.2]

theorem bodyChar_not_paren {c : Char} (h : bodyChar c = true) : c ≠ '(' ∧ c ≠ ')' := by
  unfold bodyChar at h
  constructor
  · intro hc; subst hc; revert h; decide
  · intro hc; subst hc; revert h; decide

theorem matches_bodyRun {w : List Char} (h : Matches bodyRun w) :
    ∀ c ∈ w, c ≠ '(' ∧ c ≠ ')' := by
  unfold bodyRun RE.plus at h
  obtain ⟨w1, w2, rfl, h1, h2⟩ := matches_seq h
  obtain ⟨c1, rfl, hc1⟩ := matches_cls h1
  have h2all : ∀ c ∈ w2, c ≠ '(' ∧ c ≠ ')' := by
    refine matches_star_forall (P := fun w => ∀ c ∈ w, c ≠ '(' ∧ c ≠ ')') ?_ ?_ h2
    · intro c hc; simp at hc
    · intro x y hx hy c hc
      obtain ⟨cx, rfl, hcx⟩ := matches_cls hx
      rcases List.mem_append.mp hc with h | h
      · simp only [List.mem_singleton] at h
        rw [h]; exact bodyChar_not_paren hcx
      · exact hy c h
  intro c hc
  rcases List.mem_append.mp hc with h | h
  · simp only [List.mem_singleton] at h
    rw [h]; exact bodyChar_not_paren hc1
  · exact h2all c h

theorem matches_lit {c : Char} {w : List Char} (h : Matches (lit c) w) : w = [c] := by
  unfold lit at h
  obtain ⟨x, rfl, hx⟩ := matches_cls h
  simp only [beq_iff_eq] at hx
  rw [hx]

/-- The text of a nested group `(` body `)` is passed over at the same depth. -/
theorem scanOpen_group (n rest : List Char) (d : Nat) (hn : ∀ c ∈ n, c ≠ '(' ∧ c ≠ ')') :
    scanOpen (('(' :: (n ++ [')'])).reverse ++ rest) d = scanOpen rest d := by
  have h1 : ('(' :: (n ++ [')'])).reverse ++ rest = ')' :: (n.reverse ++ ('(' :: rest)) := by
    simp
  rw [h1]
  have hne : (')' : Char) ≠ '(' := by decide
  simp only [scanOpen, hne, if_false, if_true]
  rw [scanOpen_skip n _ _ hn]
  simp [scanOpen]

theorem matches_groupInner {w : List Char} (h : Matches groupInner w) :
    ∀ (rest : List Char) (d : Nat), scanOpen (w.reverse ++ rest) d = scanOpen rest d := by
  unfold groupInner at h
  refine matches_star_forall
    (P := fun w => ∀ (rest : List Char) (d : Nat), scanOpen (w.reverse ++ rest) d = scanOpen rest d)
    ?_ ?_ h
  · intro rest d; rfl
  · intro x y hx hy rest d
    rw [List.reverse_append, List.append_assoc, hy]
    rcases matches_alt hx with hrun | hgrp
    · exact scanOpen_skip x rest d (matches_bodyRun hrun)
    · obtain ⟨a, bc, rfl, ha, hbc⟩ := matches_seq hgrp
      obtain ⟨b, c, rfl, hb, hc⟩ := matches_seq hbc
      rw [matches_lit ha, matches_lit hc]
      exact scanOpen_group b rest d (matches_bodyRun hb)

theorem matches_parenGroup {w : List Char} (h : Matches parenGroup w) (pre : List Char) :
    closesGroup (pre ++ w) = true := by
  unfold parenGroup at h
  obtain ⟨a, bc, rfl, ha, hbc⟩ := matches_seq h
  obtain ⟨b, c, rfl, hb, hc⟩ := matches_seq hbc
  rw [matches_lit ha, matches_lit hc]
  have hrev : (pre ++ (['('] ++ (b ++ [')']))).reverse
      = ')' :: (b.reverse ++ ('(' :: pre.reverse)) := by simp
  unfold closesGroup
  rw [hrev]
  simp only [beq_self_eq_true, Bool.true_and]
  rw [matches_groupInner hb]
  simp [scanOpen]

theorem trailingPunctuation_excluded :
    ∀ p ∈ trailingPunctuation, finalExcluded.contains p.toNat = true := by
  decide

theorem regexpSpace_reSpace : ∀ p ∈ regexpSpace, reSpace p = true := by
  decide

theorem finalChar_not_excluded {c : Char} (h : finalChar c = true) :
    c ∉ regexpSpace ∧ c ∉ trailingPunctuation := by
  unfold finalChar at h
  simp only [Bool.not_eq_true', Bool.or_eq_false_iff] at h
  constructor
  · intro hmem
    have h1 := regexpSpace_reSpace c hmem
    rw [h.1] at h1
    exact Bool.noConfusion h1
  · intro hmem
    have h2 := trailingPunctuation_excluded c hmem
    rw [h.2] at h2
    exact Bool.noConfusion h2

theorem matches_urlEnd {w : List Char} (h : Matches urlEnd w) (pre : List Char) :
    endsWell (pre ++ w) := by
  unfold urlEnd at h
  rcases matches_alt h with hg | hc
  · exact Or.inl (matches_parenGroup hg pre)
  · obtain ⟨c, rfl, hfc⟩ := matches_cls hc
    exact Or.inr ⟨c, by simp, (finalChar_not_excluded hfc).1, (finalChar_not_excluded hfc).2⟩

theorem matches_URLRegex {w : List Char} (h : Matches URLRegex w) : endsWell w := by
  unfold URLRegex at h
  obtain ⟨w0, w1, rfl, _, h1⟩ := matches_seq h
  obtain ⟨w2, w3, rfl, _, h3⟩ := matches_seq h1
  obtain ⟨w4, w5, rfl, _, h5⟩ := matches_seq h3
  have := matches_urlEnd h5 (w0 ++ (w2 ++ w4))
  simpa [List.append_assoc] using this

set_option maxRecDepth 100000 in
/-- C10, as stated, fails: "see http://x.org/a" followed by a vertical tab (U+000B) and
" now" gives one candidate, which ends in the vertical tab: white space (for
`unicode.IsSpace`, as for the specification's wording), and no `)` closes a group. The
class `\s` of the expression does not hold U+000B, so the last class accepts it. -/
theorem extract_candidate_ends_in_vertical_tab :
    Extract "see http://x.org/a\x0b now" = ["http://x.org/a\x0b"] ∧
    ("http://x.org/a\x0b" : String).data.getLast? = some '\x0b' ∧
    isSpace '\x0b' = true ∧
    closesGroup ("http://x.org/a\x0b" : String).data = false ∧
    ¬ (∀ text c : String, c ∈ Extract text → endsAsWorded c.data) := by
  refine ⟨by decide, by decide, by decide, by decide, ?_⟩
  intro h
  have hmem : ("http://x.org/a\x0b" : String) ∈ Extract "see http://x.org/a\x0b now" := by
    decide
  rcases h _ _ hmem with hg | ⟨c, hlast, hsp, _⟩
  · revert hg; decide
  · have hl : ("http://x.org/a\x0b" : String).data.getLast? = some '\x0b' := by decide
    rw [hl] at hlast
    simp only [Option.some.injEq] at hlast
    subst hlast
    revert hsp; decide

set_option maxRecDepth 100000 in
/-- C10, amended. Every candidate that the extraction returns for a text ends either in a
`)` that closes a parenthesised group inside the candidate, or in a character that is none
of the five characters of the class `\s` (tab, line feed, form feed, carriage return,
space) and none of the listed punctuation characters. A text without a link gives no
candidate, "see http://example.com/x now" gives exactly "http://example.com/x", and in
"http://a.org/x, www.b.org/y(z)!" the comma and the exclamation mark are left out while
the balanced group is kept. -/
theorem extract_candidates_end_well (text c : String) (hc : c ∈ Extract text) :
    endsWell c.data ∧
    Extract "no links here" = [] ∧
    Extract "see http://example.com/x now" = ["http://example.com/x"] ∧
    Extract "http://a.org/x, www.b.org/y(z)!" = ["http://a.org/x", "www.b.org/y(z)"] := by
  refine ⟨?_, by decide, by decide, by decide⟩
  unfold Extract at hc
  obtain ⟨w, hw, rfl⟩ := List.mem_map.mp hc
  exact matches_URLRegex (mem_findAll URLRegex _ _ _ w hw)

set_option maxRecDepth 100000 in
/-- C10 amended, at a concrete input: the candidate of "see http://example.com/x now". -/
theorem extract_candidates_end_well_witness :
    "http://example.com/x" ∈ Extract "see http://example.com/x now" ∧
    endsWell ("http://example.com/x" : String).data :=
  ⟨by decide,
   (extract_candidates_end_well "see http://example.com/x now" "http://example.com/x"
      (by decide)).1⟩

/-! ## What the history query returns whatever the engine -/

theorem chosen_urls (eng : Engine) (db : Store) (us : List String)
    (hus : ∀ u ∈ us, u ∈ db.map Row.url) :
    (((us.map (fun u => db.filter (fun r => r.url == u))).filterMap
      (fun g => g.get? (eng g % g.length))).map Row.url) = us := by
  induction us with
  | nil => rfl
  | cons u rest ih =>
    have ihr := ih (fun x hx => hus x (List.mem_cons_of_mem _ hx))
    obtain ⟨r, hr, hru⟩ := List.mem_map.mp (hus u (List.mem_cons_self _ _))
    have hmem : r ∈ db.filter (fun x => x.url == u) := by
      simp [List.mem_filter, hr, hru]
    have hpos : 0 < (db.filter (fun x => x.url == u)).length :=
      List.length_pos.mpr (List.ne_nil_of_mem hmem)
    have hlt : eng (db.filter (fun x => x.url == u)) % (db.filter (fun x => x.url == u)).length
        < (db.filter (fun x => x.url == u)).length := Nat.mod_lt _ hpos
    rw [List.map_cons, List.filterMap_cons, List.get?_eq_get hlt]
    simp only [List.map_cons]
    rw [ihr]
    congr 1
    have hin := List.get_mem (db.filter (fun x => x.url == u))
      (eng (db.filter (fun x => x.url == u)) % (db.filter (fun x => x.url == u)).length) hlt
    have := (List.mem_filter.mp hin).2
    simpa using this

theorem mem_queryRecent (eng : Engine) (db : Store) (limit : Nat) (r : Row)
    (h : r ∈ queryRecent eng db limit) : r ∈ db := by
  unfold queryRecent at h
  have h1 := List.mem_of_mem_take h
  have h2 := (List.perm_insertionSort idDesc _).subset h1
  obtain ⟨g, hg, hget⟩ := List.mem_filterMap.mp h2
  unfold groupByUrl at hg
  obtain ⟨u, _, rfl⟩ := List.mem_map.mp hg
  have hin := List.get?_mem hget
  exact (List.mem_filter.mp hin).1

theorem nodup_urls_queryRecent (eng : Engine) (db : Store) (limit : Nat) :
    ((queryRecent eng db limit).map Row.url).Nodup := by
  unfold queryRecent
  have hchosen := chosen_urls eng db (db.map Row.url).dedup
    (fun u hu => List.mem_dedup.mp hu)
  have hnd : (((groupByUrl db).filterMap
      (fun g => g.get? (eng g % g.length))).map Row.url).Nodup := by
    unfold groupByUrl
    rw [hchosen]
    exact List.nodup_dedup _
  have hperm := (List.perm_insertionSort idDesc
    ((groupByUrl db).filterMap (fun g => g.get? (eng g % g.length)))).map Row.url
  have hnd2 := hperm.symm.nodup_iff.mp hnd
  exact hnd2.sublist ((List.take_sublist _ _).map Row.url)

theorem sorted_queryRecent (eng : Engine) (db : Store) (limit : Nat) :
    (queryRecent eng db limit).Pairwise idDesc := by
  unfold queryRecent
  have h := List.sorted_insertionSort idDesc
    ((groupByUrl db).filterMap (fun g => g.get? (eng g % g.length)))
  exact List.Pairwise.sublist (List.take_sublist _ _) h

set_option maxRecDepth 100000 in
/-- C7. A store in which `http://a.org/` is seen, then `http://b.org/`, then `http://a.org/`
again: with an engine that evaluates the bare columns of a group on its first row, the
query lists `http://b.org/` (id 2) before `http://a.org/`, for which it returns the row of
id 1 and not the most recent row, of id 3. With an engine that takes the last row of a
group the same query returns the row of id 3 first. Whatever the engine, the query returns
at most `limit` rows, all rows of the table, with pairwise distinct urls, in descending
order of the ids of the rows returned. -/
theorem queryRecent_depends_on_engine_row :
    queryRecent firstRowEngine
      [⟨1, "http://a.org/", "al", "al!u@h", "#a", ⟨0, 1, 1, 0, 0, 0⟩⟩,
       ⟨2, "http://b.org/", "bo", "bo!u@h", "#a", ⟨1, 1, 1, 0, 0, 1⟩⟩,
       ⟨3, "http://a.org/", "cy", "cy!u@h", "#a", ⟨2, 1, 1, 0, 0, 2⟩⟩] 5
      = [⟨2, "http://b.org/", "bo", "bo!u@h", "#a", ⟨1, 1, 1, 0, 0, 1⟩⟩,
         ⟨1, "http://a.org/", "al", "al!u@h", "#a", ⟨0, 1, 1, 0, 0, 0⟩⟩] ∧
    queryRecent lastRowEngine
      [⟨1, "http://a.org/", "al", "al!u@h", "#a", ⟨0, 1, 1, 0, 0, 0⟩⟩,
       ⟨2, "http://b.org/", "bo", "bo!u@h", "#a", ⟨1, 1, 1, 0, 0, 1⟩⟩,
       ⟨3, "http://a.org/", "cy", "cy!u@h", "#a", ⟨2, 1, 1, 0, 0, 2⟩⟩] 5
      = [⟨3, "http://a.org/", "cy", "cy!u@h", "#a", ⟨2, 1, 1, 0, 0, 2⟩⟩,
         ⟨2, "http://b.org/", "bo", "bo!u@h", "#a", ⟨1, 1, 1, 0, 0, 1⟩⟩] ∧
    (∀ (eng : Engine) (db : Store) (limit : Nat),
      (queryRecent eng db limit).length ≤ limit ∧
      (∀ r ∈ queryRecent eng db limit, r ∈ db) ∧
      ((queryRecent eng db limit).map Row.url).Nodup ∧
      (queryRecent eng db limit).Pairwise (fun a b => b.id ≤ a.id)) := by
  refine ⟨by decide, by decide, ?_⟩
  intro eng db limit
  refine ⟨?_, fun r hr => mem_queryRecent eng db limit r hr,
    nodup_urls_queryRecent eng db limit, sorted_queryRecent eng db limit⟩
  rw [length_queryRecent]
  exact Nat.min_le_left _ _

/-! ## float64 rounding and the whole units of a duration -/

theorem bitLenAux_zero (fuel : Nat) : bitLenAux fuel 0 = 0 := by
  cases fuel <;> simp [bitLenAux]

theorem bitLenAux_spec (fuel : Nat) : ∀ n : Nat, 0 < n → n < 2 ^ fuel →
    0 < bitLenAux fuel n ∧ 2 ^ (bitLenAux fuel n - 1) ≤ n ∧ n < 2 ^ bitLenAux fuel n := by
  induction fuel with
  | zero => intro n h0 h1; simp at h1; omega
  | succ f ih =>
    intro n h0 h1
    have hn : n ≠ 0 := Nat.pos_iff_ne_zero.mp h0
    simp only [bitLenAux, hn, if_false]
    by_cases h2 : n / 2 = 0
    · rw [h2, bitLenAux_zero]
      have : n = 1 := by omega
      subst this
      simp
    · have hpos : 0 < n / 2 := Nat.pos_of_ne_zero h2
      have hlt : n / 2 < 2 ^ f := by
        rw [Nat.div_lt_iff_lt_mul (by decide : 0 < 2)]
        rw [pow_succ] at h1
        exact h1
      obtain ⟨hL, hlo, hhi⟩ := ih (n / 2) hpos hlt
      refine ⟨Nat.succ_pos _, ?_, ?_⟩
      · have e1 : bitLenAux f (n / 2) + 1 - 1 = (bitLenAux f (n / 2) - 1) + 1 := by omega
        rw [e1, pow_succ]
        omega
      · rw [pow_succ]
        omega

theorem bitLen_spec (n : Nat) (h : 0 < n) :
    0 < bitLen n ∧ 2 ^ (bitLen n - 1) ≤ n ∧ n < 2 ^ bitLen n :=
  bitLenAux_spec n n h (Nat.lt_two_pow n)

theorem roundHalfEven_spec (n d : Nat) (hd : 0 < d) :
    n / d ≤ roundHalfEven n d ∧ 2 * roundHalfEven n d * d ≤ 2 * n + d := by
  have hdm := Nat.div_add_mod n d
  have hmod := Nat.mod_lt n hd
  unfold roundHalfEven
  simp only
  generalize hq : n / d = q at *
  generalize hr : n % d = r at *
  have hqd : 2 * q * d = 2 * (d * q) := by ring
  by_cases h1 : 2 * r < d
  · simp only [h1, if_true]
    refine ⟨le_refl _, ?_⟩
    rw [hqd]; omega
  · by_cases h2 : d < 2 * r
    · simp only [h1, h2, if_true, if_false]
      refine ⟨Nat.le_succ _, ?_⟩
      have : 2 * (q + 1) * d = 2 * (d * q) + 2 * d := by ring
      rw [this]; omega
    · simp only [h1, h2, if_false]
      have hm : q % 2 ≤ 1 := by omega
      refine ⟨Nat.le_add_right _ _, ?_⟩
      have hle : 2 * (q + q % 2) * d ≤ 2 * (q + 1) * d := by
        apply Nat.mul_le_mul_right
        omega
      have : 2 * (q + 1) * d = 2 * (d * q) + 2 * d := by ring
      rw [this] at hle
      omega

theorem exponent_lt (a b K : Nat) (ha : 0 < a) (hb : 0 < b) (h : a < b * 2 ^ K) :
    F64.exponent a b < (K : Int) := by
  obtain ⟨hla, hlo_a, hhi_a⟩ := bitLen_spec a ha
  obtain ⟨hlb, hlo_b, hhi_b⟩ := bitLen_spec b hb
  unfold F64.exponent
  simp only
  generalize hla' : bitLen a = la at *
  generalize hlb' : bitLen b = lb at *
  by_cases hK : (la : Int) - (lb : Int) < (K : Int)
  · split <;> omega
  · have hge : lb + K ≤ la := by omega
    have hnn : (0 : Int) ≤ (la : Int) - (lb : Int) := by omega
    have htn : ((la : Int) - (lb : Int)).toNat = la - lb := by omega
    have hpow : 2 ^ K ≤ 2 ^ (la - lb) := Nat.pow_le_pow_right (by decide) (by omega)
    have hnot : ¬ (b * 2 ^ (la - lb) ≤ a) := by
      have : b * 2 ^ K ≤ b * 2 ^ (la - lb) := Nat.mul_le_mul_left _ hpow
      omega
    simp only [hnn, if_true, htn, hnot, decide_False, Bool.false_eq_true, if_false]
    -- la ≤ lb + K
    have h1 : 2 ^ (la - 1) < 2 ^ (lb + K) := by
      calc 2 ^ (la - 1) ≤ a := hlo_a
        _ < b * 2 ^ K := h
        _ < 2 ^ lb * 2 ^ K := Nat.mul_lt_mul_of_pos_right hhi_b (Nat.two_pow_pos K)
        _ = 2 ^ (lb + K) := (pow_add 2 lb K).symm
    have h2 : la - 1 < lb + K := (Nat.pow_lt_pow_iff_right (by decide)).mp h1
    omega


theorem roundPos_spec (a b K : Nat) (ha : 0 < a) (hb : 0 < b) (hK : K ≤ 53)
    (h : a < b * 2 ^ K) :
    ∃ S m : Nat, F64.roundPos a b = ⟨(m : Int), 2 ^ S⟩ ∧ 53 ≤ S + K ∧
      a * 2 ^ S / b ≤ m ∧ 2 * m * b ≤ 2 * (a * 2 ^ S) + b := by
  have he := exponent_lt a b K ha hb h
  have hs : (0 : Int) ≤ 52 - F64.exponent a b := by omega
  obtain ⟨hlo, hhi⟩ := roundHalfEven_spec (a * 2 ^ (52 - F64.exponent a b).toNat) b hb
  refine ⟨(52 - F64.exponent a b).toNat,
    roundHalfEven (a * 2 ^ (52 - F64.exponent a b).toNat) b, ?_, ?_, hlo, hhi⟩
  · unfold F64.roundPos
    simp only [hs, if_true]
  · omega

theorem ofInt_exact (a : Nat) (h : a < 2 ^ 53) :
    ∃ S : Nat, F64.ofInt (a : Int) = ⟨((a * 2 ^ S : Nat) : Int), 2 ^ S⟩ := by
  by_cases h0 : a = 0
  · subst h0
    exact ⟨0, by simp [F64.ofInt, F64.round]⟩
  · have hpos : 0 < a := Nat.pos_of_ne_zero h0
    have hne : ¬ ((a : Int) = 0) := by omega
    have hgt : (0 : Int) < (a : Int) := by omega
    obtain ⟨S, m, hrp, _, hlo, hhi⟩ := roundPos_spec a 1 53 hpos (by decide) (le_refl _)
      (by simpa using h)
    refine ⟨S, ?_⟩
    unfold F64.ofInt F64.round
    simp only [hne, hgt, if_true, if_false, Int.toNat_ofNat]
    rw [hrp]
    have hm : m = a * 2 ^ S := by
      simp only [Nat.div_one] at hlo
      omega
    rw [hm]

theorem pow_sum_bound (D X Y : Nat) (hD : D ≤ 3600000000000) (hX : 2 ^ 41 ≤ X)
    (hY : 2 ^ 53 ≤ Y) : D * X + D * Y < 2 * (X * Y) := by
  have h1 : X * 2 ^ 53 ≤ X * Y := Nat.mul_le_mul_left _ hY
  have h2 : 2 ^ 41 * Y ≤ X * Y := Nat.mul_le_mul_right _ hX
  have h3 : D * X ≤ 3600000000000 * X := Nat.mul_le_mul_right _ hD
  have h4 : D * Y ≤ 3600000000000 * Y := Nat.mul_le_mul_right _ hD
  have hXpos : 0 < X := lt_of_lt_of_le (by decide) hX
  have hYpos : 0 < Y := lt_of_lt_of_le (by decide) hY
  have hZ : 0 < X * Y := Nat.mul_pos hXpos hYpos
  generalize X * Y = Z at *
  norm_num at h1 h2 hX hY
  omega

theorem divNat_spec (r D : Nat) (hD : 0 < D) (hDle : D ≤ 3600000000000) (hr : r < D) :
    ∃ T m : Nat, F64.divNat (F64.ofInt (r : Int)) D = ⟨(m : Int), 2 ^ T⟩ ∧ m < 2 ^ T ∧
      ∀ U : Nat, 41 ≤ U → 2 * m * 2 ^ U + 2 ^ T < 2 * (2 ^ U * 2 ^ T) := by
  have hr53 : r < 2 ^ 53 := by
    have : (3600000000000 : Nat) < 2 ^ 53 := by decide
    omega
  obtain ⟨S, hS⟩ := ofInt_exact r hr53
  by_cases h0 : r = 0
  · subst h0
    refine ⟨0, 0, ?_, by simp, ?_⟩
    · rw [hS]; simp [F64.divNat, F64.round]
    · intro U _
      have : 0 < 2 ^ U := Nat.two_pow_pos U
      simp
      omega
  · have hrpos : 0 < r := Nat.pos_of_ne_zero h0
    have hWpos : 0 < 2 ^ S := Nat.two_pow_pos S
    have hapos : 0 < r * 2 ^ S := Nat.mul_pos hrpos hWpos
    have hbpos : 0 < 2 ^ S * D := Nat.mul_pos hWpos hD
    have hlt : r * 2 ^ S < 2 ^ S * D * 2 ^ 0 := by
      rw [pow_zero, Nat.mul_one, Nat.mul_comm r]
      exact Nat.mul_lt_mul_of_pos_left hr hWpos
    obtain ⟨T, m, hrp, hT, _, hhi⟩ :=
      roundPos_spec (r * 2 ^ S) (2 ^ S * D) 0 hapos hbpos (by decide) hlt
    have hT53 : 53 ≤ T := by omega
    have hY : 2 ^ 53 ≤ 2 ^ T := Nat.pow_le_pow_right (by decide) hT53
    -- cancel the common factor 2 ^ S
    have hhi2 : 2 * m * D ≤ 2 * (r * 2 ^ T) + D := by
      have e1 : 2 * m * (2 ^ S * D) = 2 ^ S * (2 * m * D) := by ring
      have e2 : 2 * (r * 2 ^ S * 2 ^ T) + 2 ^ S * D = 2 ^ S * (2 * (r * 2 ^ T) + D) := by ring
      rw [e1, e2] at hhi
      exact Nat.le_of_mul_le_mul_left hhi hWpos
    have hne : ¬ (((r * 2 ^ S : Nat) : Int) = 0) := by omega
    have hgt : (0 : Int) < ((r * 2 ^ S : Nat) : Int) := by omega
    have hrd : r + 1 ≤ D := hr
    have hrY : 2 * (r * 2 ^ T) + 2 * 2 ^ T ≤ 2 * (D * 2 ^ T) := by
      have := Nat.mul_le_mul_right (2 ^ T) hrd
      rw [Nat.add_mul, Nat.one_mul] at this
      omega
    refine ⟨T, m, ?_, ?_, ?_⟩
    · rw [hS]
      unfold F64.divNat F64.round
      simp only [hne, hgt, if_true, if_false, Int.toNat_ofNat]
      exact hrp
    · -- m < 2 ^ T
      by_contra hcon
      have hge : 2 ^ T ≤ m := Nat.le_of_not_lt hcon
      have h5 : 2 * (2 ^ T * D) ≤ 2 * m * D := by
        have := Nat.mul_le_mul_right D hge
        have e : 2 * m * D = 2 * (m * D) := by ring
        rw [e]; omega
      have e3 : 2 ^ T * D = D * 2 ^ T := Nat.mul_comm _ _
      rw [e3] at h5
      have : D < 2 ^ T := lt_of_lt_of_le (by
        have : (3600000000000 : Nat) < 2 ^ 53 := by decide
        omega) hY
      omega
    · intro U hU
      have hX : 2 ^ 41 ≤ 2 ^ U := Nat.pow_le_pow_right (by decide) hU
      have hsum := pow_sum_bound D (2 ^ U) (2 ^ T) hDle hX hY
      -- multiply the goal by D
      have hmul : (2 * m * 2 ^ U + 2 ^ T) * D < 2 * (2 ^ U * 2 ^ T) * D := by
        have e1 : (2 * m * 2 ^ U + 2 ^ T) * D = (2 * m * D) * 2 ^ U + D * 2 ^ T := by ring
        have h6 : (2 * m * D) * 2 ^ U ≤ (2 * (r * 2 ^ T) + D) * 2 ^ U :=
          Nat.mul_le_mul_right _ hhi2
        have h7 : (2 * (r * 2 ^ T) + 2 * 2 ^ T) * 2 ^ U ≤ 2 * (D * 2 ^ T) * 2 ^ U :=
          Nat.mul_le_mul_right _ hrY
        have e2 : (2 * (r * 2 ^ T) + D) * 2 ^ U
            = 2 * (r * 2 ^ T) * 2 ^ U + D * 2 ^ U := by ring
        have e3 : (2 * (r * 2 ^ T) + 2 * 2 ^ T) * 2 ^ U
            = 2 * (r * 2 ^ T) * 2 ^ U + 2 * (2 ^ U * 2 ^ T) := by ring
        have e4 : 2 * (D * 2 ^ T) * 2 ^ U = 2 * (2 ^ U * 2 ^ T) * D := by ring
        rw [e1]
        rw [e2] at h6
        rw [e3, e4] at h7
        omega
      exact Nat.lt_of_mul_lt_mul_right hmul


theorem add_trunc (q r D : Nat) (hD : 0 < D) (hDle : D ≤ 3600000000000) (hr : r < D)
    (hq : q < 4096) :
    (F64.add (F64.ofInt (q : Int)) (F64.divNat (F64.ofInt (r : Int)) D)).toInt64 = (q : Int) := by
  have hq53 : q < 2 ^ 53 := lt_trans hq (by decide)
  obtain ⟨S, hS⟩ := ofInt_exact q hq53
  obtain ⟨T, m, hdiv, hmlt, hP⟩ := divNat_spec r D hD hDle hr
  rw [hS, hdiv]
  unfold F64.add
  simp only
  have hWpos : 0 < 2 ^ S := Nat.two_pow_pos S
  have hYpos : 0 < 2 ^ T := Nat.two_pow_pos T
  have hBpos : 0 < 2 ^ S * 2 ^ T := Nat.mul_pos hWpos hYpos
  have hnum : ((q * 2 ^ S : Nat) : Int) * ((2 ^ T : Nat) : Int) + (m : Int) * ((2 ^ S : Nat) : Int)
      = ((q * (2 ^ S * 2 ^ T) + m * 2 ^ S : Nat) : Int) := by
    push_cast; ring
  rw [hnum]
  by_cases hA : q * (2 ^ S * 2 ^ T) + m * 2 ^ S = 0
  · have hq0 : q = 0 := by
      rcases Nat.eq_zero_or_pos q with h | h
      · exact h
      · have := Nat.mul_pos h hBpos
        omega
    rw [hA, hq0]
    simp [F64.round, F64.toInt64]
  · have hApos : 0 < q * (2 ^ S * 2 ^ T) + m * 2 ^ S := Nat.pos_of_ne_zero hA
    have hne : ¬ (((q * (2 ^ S * 2 ^ T) + m * 2 ^ S : Nat) : Int) = 0) := by omega
    have hgt : (0 : Int) < ((q * (2 ^ S * 2 ^ T) + m * 2 ^ S : Nat) : Int) := by omega
    have hmW : m * 2 ^ S < 2 ^ S * 2 ^ T := by
      rw [Nat.mul_comm m]
      exact Nat.mul_lt_mul_of_pos_left hmlt hWpos
    have hAlt : q * (2 ^ S * 2 ^ T) + m * 2 ^ S < 2 ^ S * 2 ^ T * 2 ^ 12 := by
      have h1 : (q + 1) * (2 ^ S * 2 ^ T) ≤ 4096 * (2 ^ S * 2 ^ T) :=
        Nat.mul_le_mul_right _ hq
      have e1 : (q + 1) * (2 ^ S * 2 ^ T) = q * (2 ^ S * 2 ^ T) + 2 ^ S * 2 ^ T := by ring
      have e2 : 2 ^ S * 2 ^ T * 2 ^ 12 = 4096 * (2 ^ S * 2 ^ T) := by norm_num; ring
      rw [e1] at h1
      rw [e2]
      omega
    obtain ⟨U, M, hrp, hU, hlo, hhi⟩ := roundPos_spec _ _ 12 hApos hBpos (by decide) hAlt
    have hU41 : 41 ≤ U := by omega
    have hXpos : 0 < 2 ^ U := Nat.two_pow_pos U
    unfold F64.round
    simp only [hne, hgt, if_true, if_false, Int.toNat_ofNat]
    rw [hrp]
    unfold F64.toInt64
    simp only
    have hdivq : M / 2 ^ U = q := by
      apply Nat.div_eq_of_lt_le
      · -- q * 2 ^ U ≤ M
        refine le_trans ?_ hlo
        rw [Nat.le_div_iff_mul_le hBpos]
        have h2 : q * (2 ^ S * 2 ^ T) * 2 ^ U
            ≤ (q * (2 ^ S * 2 ^ T) + m * 2 ^ S) * 2 ^ U :=
          Nat.mul_le_mul_right _ (Nat.le_add_right _ _)
        have e3 : q * 2 ^ U * (2 ^ S * 2 ^ T) = q * (2 ^ S * 2 ^ T) * 2 ^ U := by ring
        rw [e3]
        exact h2
      · -- M < (q + 1) * 2 ^ U
        by_contra hcon
        have hge : (q + 1) * 2 ^ U ≤ M := Nat.le_of_not_lt hcon
        have h3 : 2 * ((q + 1) * 2 ^ U) * (2 ^ S * 2 ^ T) ≤ 2 * M * (2 ^ S * 2 ^ T) := by
          apply Nat.mul_le_mul_right
          exact Nat.mul_le_mul_left _ hge
        have h4 := le_trans h3 hhi
        have hPU := hP U hU41
        have h5 : 2 ^ S * (2 * m * 2 ^ U + 2 ^ T) < 2 ^ S * (2 * (2 ^ U * 2 ^ T)) :=
          Nat.mul_lt_mul_of_pos_left hPU hWpos
        have e4 : 2 * ((q + 1) * 2 ^ U) * (2 ^ S * 2 ^ T)
            = 2 * (q * (2 ^ S * 2 ^ T) * 2 ^ U) + 2 ^ S * (2 * (2 ^ U * 2 ^ T)) := by ring
        have e5 : 2 * ((q * (2 ^ S * 2 ^ T) + m * 2 ^ S) * 2 ^ U) + 2 ^ S * 2 ^ T
            = 2 * (q * (2 ^ S * 2 ^ T) * 2 ^ U) + 2 ^ S * (2 * m * 2 ^ U + 2 ^ T) := by ring
        rw [e4, e5] at h4
        omega
    have hcast : Int.tdiv (M : Int) ((2 ^ U : Nat) : Int) = ((M / 2 ^ U : Nat) : Int) := by
      rw [Int.ofNat_tdiv]
    rw [hcast, hdivq]

theorem hours_trunc (n : Nat) (h : n < 4096 * 3600000000000) :
    (Duration.Hours (n : Int)).toInt64 = ((n / 3600000000000 : Nat) : Int) := by
  unfold Duration.Hours
  have hH : Hour = ((3600000000000 : Nat) : Int) := by decide
  rw [hH, ← Int.ofNat_tdiv, ← Int.ofNat_tmod]
  exact add_trunc _ _ _ (by decide) (le_refl _) (Nat.mod_lt _ (by decide))
    (Nat.div_lt_of_lt_mul (by omega))

theorem minutes_trunc (n : Nat) (h : n < 4096 * 60000000000) :
    (Duration.Minutes (n : Int)).toInt64 = ((n / 60000000000 : Nat) : Int) := by
  unfold Duration.Minutes
  have hM : Minute = ((60000000000 : Nat) : Int) := by decide
  rw [hM, ← Int.ofNat_tdiv, ← Int.ofNat_tmod]
  exact add_trunc _ _ _ (by decide) (by decide) (Nat.mod_lt _ (by decide))
    (Nat.div_lt_of_lt_mul (by omega))

theorem seconds_trunc (n : Nat) (h : n < 4096 * 1000000000) :
    (Duration.Seconds (n : Int)).toInt64 = ((n / 1000000000 : Nat) : Int) := by
  unfold Duration.Seconds
  have hS : Second = ((1000000000 : Nat) : Int) := by decide
  rw [hS, ← Int.ofNat_tdiv, ← Int.ofNat_tmod]
  exact add_trunc _ _ _ (by decide) (by decide) (Nat.mod_lt _ (by decide))
    (Nat.div_lt_of_lt_mul (by omega))

theorem formatDuration_eq_humanizeSpec (d : Duration) (h0 : 0 ≤ d) (h1 : d < 4096 * Hour) :
    formatDuration d = humanizeSpec d := by
  obtain ⟨n, rfl⟩ := Int.eq_ofNat_of_zero_le h0
  have hH : Hour = ((3600000000000 : Nat) : Int) := by decide
  have hM : Minute = ((60000000000 : Nat) : Int) := by decide
  have hS : Second = ((1000000000 : Nat) : Int) := by decide
  have hn : n < 4096 * 3600000000000 := by
    rw [hH] at h1
    exact_mod_cast h1
  unfold formatDuration humanizeSpec
  simp only
  rw [hours_trunc n hn, hH, hM, hS, ← Int.ofNat_tdiv, ← Int.ofNat_tdiv, ← Int.ofNat_tdiv]
  by_cases c1 : ((n / 3600000000000 : Nat) : Int) ≥ 24
  · simp only [c1, if_true]
  · by_cases c2 : ((n / 3600000000000 : Nat) : Int) ≥ 1
    · simp only [c1, c2, if_true, if_false]
    · simp only [c1, c2, if_false]
      have hlt : n < 3600000000000 := by
        have : n / 3600000000000 = 0 := by omega
        exact (Nat.div_eq_zero_iff (by decide)).mp this
      rw [minutes_trunc n (by omega)]
      by_cases c3 : ((n / 60000000000 : Nat) : Int) ≥ 1
      · simp only [c3, if_true]
      · simp only [c3, if_false]
        have hlt2 : n < 60000000000 := by
          have : n / 60000000000 = 0 := by omega
          exact (Nat.div_eq_zero_iff (by decide)).mp this
        rw [seconds_trunc n (by omega)]

set_option maxRecDepth 100000 in
/-- C5. One nanosecond before 171 days (4104 hours) the float64 sum in `Duration.Hours`
rounds up to 4104.0: `formatDuration` prints "171 days", while the duration holds 4103
whole hours and the truncating cascade of the specification gives "170 days". The six
examples of the specification are printed as it says, and for every duration from zero up
to 4096 hours `formatDuration` equals the cascade. -/
theorem formatDuration_rounds_up_before_171_days :
    formatDuration (4104 * Hour - 1) = "171 days" ∧
    humanizeSpec (4104 * Hour - 1) = "170 days" ∧
    (Duration.Hours (4104 * Hour - 1)).toInt64 = 4104 ∧
    Int.tdiv (4104 * Hour - 1) Hour = 4103 ∧
    formatDuration (45 * Second) = "45 seconds" ∧
    formatDuration (90 * Second) = "1 minute" ∧
    formatDuration (7200 * Second) = "2 hours" ∧
    formatDuration (90000 * Second) = "1 day" ∧
    formatDuration (48 * Hour) = "2 days" ∧
    formatDuration 0 = "0 second" ∧
    (∀ d : Duration, 0 ≤ d → d < 4096 * Hour → formatDuration d = humanizeSpec d) := by
  refine ⟨by decide, by decide, by decide, by decide, by decide, by decide, by decide,
    by decide, by decide, by decide, formatDuration_eq_humanizeSpec⟩

end Voidbot
